import Mathlib

/-!
Verification of the grammar-lowering core (`src/lib/yacc/grammar.rs`): the
translation of a validated grammar AST into an indexed, augmented
`YaccGrammar`.  Rust strings are embedded as Lean `String`; the `NTIdx`,
`TIdx` and `PIdx` newtype wrappers over `usize` are embedded as `Nat`
(indices here are list positions, never subject to overflow); Rust
`Vec<T>` becomes `List T`; `HashMap`/`HashSet` inputs become association
lists / lists whose order records the (otherwise unspecified) iteration
order; Rust `Option` becomes `Option`.
-/

/-- `AssocKind` (grammar.rs lines 55-60). -/
inductive AssocKind where
  | Left
  | Right
  | Nonassoc
deriving DecidableEq

/-- `Precedence` (grammar.rs lines 48-53).  `PrecedenceLevel` is `u64`;
levels are only stored here, never computed with, so `Nat` is exact. -/
structure Precedence where
  level : Nat
  kind : AssocKind
deriving DecidableEq

/-- The lowered `Symbol` over dense indices (crate root, used at
grammar.rs lines 190-245). -/
inductive GrmSymbol where
  | Nonterminal (idx : Nat)
  | Terminal (idx : Nat)
deriving DecidableEq

/-- Modelled from the spec: `ast::Symbol`, a name-based symbol reference of
the front-end AST (the `yacc::ast` module is outside the given source;
spec section 6 describes its shape). -/
inductive ast.Symbol where
  | Nonterminal (name : String)
  | Terminal (name : String)
deriving DecidableEq

/-- Modelled from the spec: one AST production: a symbol sequence and an
optional explicit precedence-override symbol name (spec sections 4.4, 6). -/
structure ast.Production where
  symbols : List ast.Symbol
  precedence : Option String
deriving DecidableEq

/-- Modelled from the spec: an AST rule is its list of productions. -/
structure ast.Rule where
  productions : List ast.Production
deriving DecidableEq

/-- Modelled from the spec: the validated grammar AST (spec section 6).
`rules` and `precs` are `HashMap`s in the source and `implicit_tokens` a
`HashSet`; they are embedded as (association) lists whose order records
the map's iteration order, so that order-(in)dependence is statable. -/
structure ast.GrammarAST where
  rules : List (String × ast.Rule)
  tokens : List String
  precs : List (String × Precedence)
  start : Option String
  implicit_tokens : Option (List String)
deriving DecidableEq

/-- `YaccKind` (the `yacc` module's grammar-kind flag, matched at
grammar.rs lines 122-147). -/
inductive YaccKind where
  | Original
  | Eco
deriving DecidableEq

/-- Rust's `to_lowercase` on the name strings (grammar.rs line 152).
`Char.toLower` folds ASCII only, whereas the source's `to_lowercase` is
the full Unicode mapping; the two coincide exactly on ASCII strings, so
every statement here that relies on case-fold ties or their absence
(C7) restricts itself to ASCII names. -/
def lowerStr (s : String) : String := ⟨s.data.map Char.toLower⟩

/-- Lexicographic less-or-equal on char lists: Rust's `String::cmp`
(byte-lexicographic, which agrees with code-point order). -/
def lexLe : List Char → List Char → Bool
  | [], _ => true
  | _ :: _, [] => false
  | a :: as, b :: bs => if a = b then lexLe as bs else decide (a < b)

/-- The comparator of grammar.rs line 152:
`a.to_lowercase().cmp(&b.to_lowercase())`, as a less-or-equal test. -/
def strCmpLe (a b : String) : Bool := lexLe (lowerStr a).data (lowerStr b).data

/-- The sorting preorder of grammar.rs line 152, as a relation. -/
def strCmpLeP (a b : String) : Prop := strCmpLe a b = true

instance : DecidableRel strCmpLeP := fun a b =>
  inferInstanceAs (Decidable (strCmpLe a b = true))

/-- `marker` repeated `k` times (the candidate strings probed by the
collision-free name loops of grammar.rs lines 114-117, 129-138, 160-163). -/
def repMarker (m : String) : Nat → String
  | 0 => ""
  | k + 1 => m ++ repMarker m k

/-- The probe loop: while the candidate is taken, lengthen it by one copy
of the marker.  The source's `while` is unbounded; `taken.length + 1`
probes always suffice (theorem `freshName` characterization below), so
the fuel never runs out on the loop's actual executions. -/
def freshNameGo (marker : String) (taken : List String) : Nat → String → String
  | 0, cand => cand
  | fuel + 1, cand =>
      if cand ∈ taken then freshNameGo marker taken fuel (cand ++ marker) else cand

/-- The synthetic-name allocator (grammar.rs lines 114-117 and its other
uses): shortest `marker`-power not in `taken`. -/
def freshName (marker : String) (taken : List String) : String :=
  freshNameGo marker taken (taken.length + 1) marker

/-- The rule-name key set of the AST (`ast.rules.keys()`). -/
def ruleKeys (a : ast.GrammarAST) : List String := a.rules.map Prod.fst

/-- `start_nonterm` (grammar.rs lines 114-117): fresh `"^"`-power probed
against the rule names. -/
def startNontermName (a : ast.GrammarAST) : String := freshName "^" (ruleKeys a)

/-- `n1` (grammar.rs lines 129-132): fresh `"~"`-power probed against the
rule names. -/
def implicitNontermName (a : ast.GrammarAST) : String := freshName "~" (ruleKeys a)

/-- `n2` (grammar.rs lines 135-138): fresh `"^~"`-power probed against the
rule names. -/
def implicitStartNontermName (a : ast.GrammarAST) : String :=
  freshName "^~" (ruleKeys a)

/-- `end_term` (grammar.rs lines 160-163): fresh `"$"`-power probed
against the token names. -/
def endTermName (a : ast.GrammarAST) : String := freshName "$" a.tokens

/-- Whether the implicit-tokens machinery is active: `YaccKind::Eco` with
declared implicit tokens (grammar.rs lines 122-147). -/
def hasImplicit (kind : YaccKind) (a : ast.GrammarAST) : Bool :=
  kind == YaccKind.Eco && a.implicit_tokens.isSome

/-- `nonterm_names` after the case-insensitive sort (grammar.rs lines
108-152): the synthetic start name, then (when implicit tokens are
enabled) the implicit and implicit-start names, then the rule keys, all
sorted by the lowercased-name comparator.  Rust's `sort_by` is a stable
sort, and a stable sort's output is uniquely determined by the comparator
and the input, so the (stable) insertion sort embeds it exactly. -/
def preSortNames (kind : YaccKind) (a : ast.GrammarAST) : List String :=
  [startNontermName a] ++
    (if hasImplicit kind a then [implicitNontermName a, implicitStartNontermName a]
     else []) ++
    ruleKeys a

def nontermNames (kind : YaccKind) (a : ast.GrammarAST) : List String :=
  List.insertionSort strCmpLeP (preSortNames kind a)

/-- `term_names` (grammar.rs lines 164-171): end terminal first, then the
declared tokens in declaration order. -/
def termNames (a : ast.GrammarAST) : List String := endTermName a :: a.tokens

/-- `term_precs` (grammar.rs lines 165-171): `None` for the end terminal,
then each token's declared precedence, if any. -/
def termPrecs (a : ast.GrammarAST) : List (Option Precedence) :=
  none :: a.tokens.map (fun k => List.lookup k a.precs)

/-- The name-to-index maps `nonterm_map` / `terminal_map` (grammar.rs
lines 154-158, 172-175).  The Rust `HashMap` holds, for each name, the
last index it was inserted at; every use is on a duplicate-free name
list (guaranteed for validated ASTs), where that is the unique position
of the name, i.e. `findIdx`. -/
def nameIdx (names : List String) (n : String) : Nat := names.findIdx (· == n)

/-- Lowering of one AST symbol (grammar.rs lines 234-245): resolve the
name; after a terminal, when implicit tokens are enabled, push a
reference to the implicit nonterminal. -/
def lowerSym (ntNames tNames : List String) (implicitIdx : Option Nat) :
    ast.Symbol → List GrmSymbol
  | ast.Symbol.Nonterminal n => [GrmSymbol.Nonterminal (nameIdx ntNames n)]
  | ast.Symbol.Terminal n =>
      GrmSymbol.Terminal (nameIdx tNames n) ::
        (match implicitIdx with
         | some i => [GrmSymbol.Nonterminal i]
         | none => [])

/-- Lowering of a production's symbol sequence (grammar.rs lines 233-246). -/
def lowerSyms (ntNames tNames : List String) (implicitIdx : Option Nat)
    (syms : List ast.Symbol) : List GrmSymbol :=
  (syms.map (lowerSym ntNames tNames implicitIdx)).flatten

/-- The default-precedence scan (grammar.rs lines 251-258), applied to the
reversed symbol list: the first terminal encountered decides (its
declared precedence or, when it has none, no precedence) and the scan
stops there regardless. -/
def precFromSyms (precs : List (String × Precedence)) :
    List ast.Symbol → Option Precedence
  | [] => none
  | ast.Symbol.Terminal n :: _ => List.lookup n precs
  | ast.Symbol.Nonterminal _ :: rest => precFromSyms precs rest

/-- Precedence of one lowered production (grammar.rs lines 247-259): an
explicit `%prec` override uses the named symbol's declared precedence
(the source indexes `ast.precs[n]`, which panics when absent; validation
guarantees presence), else the right-to-left scan of the original,
pre-injection symbols. -/
def prodPrec (precs : List (String × Precedence)) (p : ast.Production) :
    Option Precedence :=
  match p.precedence with
  | some n => List.lookup n precs
  | none => precFromSyms precs p.symbols.reverse

/-- First terminal name in a symbol sequence, if any. -/
def firstTerminalName : List ast.Symbol → Option String
  | [] => none
  | ast.Symbol.Terminal n :: _ => some n
  | ast.Symbol.Nonterminal _ :: rest => firstTerminalName rest

/-- Rightmost terminal name in a symbol sequence, if any (the terminal the
spec's right-to-left default-precedence scan stops at). -/
def lastTerminalName : List ast.Symbol → Option String
  | [] => none
  | ast.Symbol.Terminal n :: rest => some ((lastTerminalName rest).getD n)
  | ast.Symbol.Nonterminal _ :: rest => lastTerminalName rest

/-- The claim's wording of the precedence rule (spec section 4.4): an
explicit override uses the named symbol's declared precedence; otherwise
the rightmost terminal of the original symbol sequence decides — its
declared precedence if it has one, else no precedence; no terminal, no
precedence. -/
def specProdPrec (precs : List (String × Precedence)) (p : ast.Production) :
    Option Precedence :=
  match p.precedence with
  | some n => List.lookup n precs
  | none =>
    match lastTerminalName p.symbols with
    | some t => List.lookup t precs
    | none => none

/-- Shape of a lowered production with implicit-token injection: a
reference to the implicit nonterminal `imp` appears immediately after
every terminal and nowhere else. -/
inductive ImplicitInjected (imp : Nat) : List GrmSymbol → Prop where
  | nil : ImplicitInjected imp []
  | nt {n : Nat} {rest : List GrmSymbol} : n ≠ imp →
      ImplicitInjected imp rest →
      ImplicitInjected imp (GrmSymbol.Nonterminal n :: rest)
  | term {t : Nat} {rest : List GrmSymbol} : ImplicitInjected imp rest →
      ImplicitInjected imp
        (GrmSymbol.Terminal t :: GrmSymbol.Nonterminal imp :: rest)

/-- The productions generated for one nonterminal name, with their
precedences, branching on the nonterminal's role exactly as the loop body
of grammar.rs lines 180-264 does. -/
def prodsForName (kind : YaccKind) (a : ast.GrammarAST) (name : String) :
    List (List GrmSymbol × Option Precedence) :=
  if name == startNontermName a then
    [([GrmSymbol.Nonterminal (nameIdx (nontermNames kind a)
        (if hasImplicit kind a then implicitStartNontermName a
         else a.start.getD ""))], none)]
  else if hasImplicit kind a && (name == implicitStartNontermName a) then
    [([GrmSymbol.Nonterminal (nameIdx (nontermNames kind a) (implicitNontermName a)),
       GrmSymbol.Nonterminal (nameIdx (nontermNames kind a) (a.start.getD ""))], none)]
  else if hasImplicit kind a && (name == implicitNontermName a) then
    ((a.implicit_tokens.getD []).map
      (fun t => ([GrmSymbol.Terminal (nameIdx (termNames a) t)], none))) ++ [([], none)]
  else
    ((List.lookup name a.rules).getD ⟨[]⟩).productions.map (fun p =>
      (lowerSyms (nontermNames kind a) (termNames a)
         (if hasImplicit kind a then
            some (nameIdx (nontermNames kind a) (implicitNontermName a))
          else none) p.symbols,
       prodPrec a.precs p))

/-- The per-nonterminal production blocks, in sorted-name order.  The
loop of grammar.rs lines 180-264 appends each block's productions to the
global `prods`/`prod_precs`/`prods_rules` vectors in this order, and (for
validated, duplicate-free name lists) pushes the fresh production indices
onto `rules_prods` at exactly the current iteration's position. -/
def prodLists (kind : YaccKind) (a : ast.GrammarAST) :
    List (List (List GrmSymbol × Option Precedence)) :=
  (nontermNames kind a).map (prodsForName kind a)

/-- Total number of productions in a block list. -/
def sumLen (ls : List (List α)) : Nat := (ls.map List.length).sum

/-- `rules_prods`: the i-th nonterminal owns the consecutive production
indices of its block (grammar.rs: the pushes at lines 184-186, 203-205,
214-223, 260). -/
def rulesProdsGo (off : Nat) : List (List α) → List (List Nat)
  | [] => []
  | l :: ls => List.range' off l.length :: rulesProdsGo (off + l.length) ls

/-- `prods_rules`: each production maps back to its block's nonterminal
index (grammar.rs: the pushes at lines 199, 209, 220, 226, 263). -/
def prodsRulesGo (i : Nat) : List (List α) → List Nat
  | [] => []
  | l :: ls => List.replicate l.length i ++ prodsRulesGo (i + 1) ls

/-- The frozen grammar (grammar.rs lines 62-92). -/
structure YaccGrammar where
  nonterms_len : Nat
  nonterminal_names : List String
  terminal_names : List String
  terminal_precs : List (Option Precedence)
  terms_len : Nat
  end_term : Nat
  prods_len : Nat
  start_prod : Nat
  prods : List (List GrmSymbol)
  rules_prods : List (List Nat)
  prods_rules : List Nat
  prod_precs : List (Option Precedence)
  implicit_nonterm : Option Nat
deriving DecidableEq

/-- `YaccGrammar::new` (grammar.rs lines 104-282). -/
def YaccGrammar.new (kind : YaccKind) (a : ast.GrammarAST) : YaccGrammar :=
  { nonterms_len := (nontermNames kind a).length
    nonterminal_names := nontermNames kind a
    terminal_names := termNames a
    terminal_precs := termPrecs a
    terms_len := (termNames a).length
    end_term := nameIdx (termNames a) (endTermName a)
    prods_len := (prodLists kind a).flatten.length
    start_prod :=
      (((rulesProdsGo 0 (prodLists kind a)).getD
          (nameIdx (nontermNames kind a) (startNontermName a)) []).getD 0 0)
    prods := (prodLists kind a).flatten.map Prod.fst
    rules_prods := rulesProdsGo 0 (prodLists kind a)
    prods_rules := prodsRulesGo 0 (prodLists kind a)
    prod_precs := (prodLists kind a).flatten.map Prod.snd
    implicit_nonterm :=
      if hasImplicit kind a then
        some (nameIdx (nontermNames kind a) (implicitNontermName a))
      else none }

/-- `end_term_idx` (grammar.rs lines 285-287). -/
def YaccGrammar.end_term_idx (g : YaccGrammar) : Nat := g.end_term

/-- `nonterm_to_prods` (grammar.rs lines 290-292). -/
def YaccGrammar.nonterm_to_prods (g : YaccGrammar) (i : Nat) : Option (List Nat) :=
  g.rules_prods[i]?

/-- `nonterm_name` (grammar.rs lines 295-297). -/
def YaccGrammar.nonterm_name (g : YaccGrammar) (i : Nat) : Option String :=
  g.nonterminal_names[i]?

/-- `prod` (grammar.rs lines 305-307). -/
def YaccGrammar.prod (g : YaccGrammar) (i : Nat) : Option (List GrmSymbol) :=
  g.prods[i]?

/-- `prod_to_nonterm` (grammar.rs lines 310-312): the source performs an
unchecked `Vec` index returning a bare `NTIdx`; `none` here models the
panic on an out-of-range index. -/
def YaccGrammar.prod_to_nonterm (g : YaccGrammar) (i : Nat) : Option Nat :=
  g.prods_rules[i]?

/-- `prod_precedence` (grammar.rs lines 315-317). -/
def YaccGrammar.prod_precedence (g : YaccGrammar) (i : Nat) :
    Option (Option Precedence) :=
  g.prod_precs[i]?

/-- `term_name` (grammar.rs lines 320-322). -/
def YaccGrammar.term_name (g : YaccGrammar) (i : Nat) : Option String :=
  g.terminal_names[i]?

/-- `term_precedence` (grammar.rs lines 325-327). -/
def YaccGrammar.term_precedence (g : YaccGrammar) (i : Nat) :
    Option (Option Precedence) :=
  g.terminal_precs[i]?

/-- `nonterminal_off` (grammar.rs lines 366-368): `position(..).unwrap()`;
`none` models the panic when the name is absent. -/
def YaccGrammar.nonterminal_off (g : YaccGrammar) (n : String) : Option Nat :=
  g.nonterminal_names.findIdx? (· == n)

/-- `terminal_off` (grammar.rs lines 371-373): `position(..).unwrap()`;
`none` models the panic when the name is absent. -/
def YaccGrammar.terminal_off (g : YaccGrammar) (n : String) : Option Nat :=
  g.terminal_names.findIdx? (· == n)

/-- Modelled from the spec: the reference-validity check of one AST symbol
(the validator lives in the out-of-scope `yacc::ast` module; spec
section 6 upstream contract). -/
def ast.Symbol.refOk (a : ast.GrammarAST) : ast.Symbol → Bool
  | ast.Symbol.Nonterminal n => (List.lookup n a.rules).isSome
  | ast.Symbol.Terminal n => a.tokens.contains n

/-- Modelled from the spec: `ast.validate()` (out-of-scope `yacc::ast`
module; spec sections 6-7): a start rule is designated and exists; rule
and token names are duplicate-free; every referenced symbol is declared;
every explicit `%prec` name has a declared precedence; every rule has at
least one production (the grammar syntax cannot produce a rule with
none); declared implicit tokens are themselves declared, duplicate-free
tokens. -/
def ast.GrammarAST.validate (a : ast.GrammarAST) : Bool :=
  (match a.start with
   | some s => (List.lookup s a.rules).isSome
   | none => false)
  && decide (ruleKeys a).Nodup
  && decide a.tokens.Nodup
  && a.rules.all (fun r =>
       !r.2.productions.isEmpty
       && r.2.productions.all (fun p =>
            p.symbols.all (ast.Symbol.refOk a)
            && (match p.precedence with
                | some n => (List.lookup n a.precs).isSome
                | none => true)))
  && (match a.implicit_tokens with
      | some its => its.all a.tokens.contains && decide its.Nodup
      | none => true)

/-- Grammar content equality up to the unspecified iteration orders of the
rules hash map and the implicit-token hash set: the recorded orders may
differ, the underlying maps/sets and all ordered data agree. -/
def ast.GrammarAST.SameContent (a1 a2 : ast.GrammarAST) : Prop :=
  a1.rules.Perm a2.rules ∧ a1.tokens = a2.tokens ∧ a1.precs = a2.precs ∧
  a1.start = a2.start ∧
  (match a1.implicit_tokens, a2.implicit_tokens with
   | none, none => True
   | some l1, some l2 => l1.Perm l2
   | _, _ => False)

/-- The minimal grammar of the source's `test_minimal`:
`%start R %token T %% R: 'T';`. -/
def minimalAST : ast.GrammarAST :=
  { rules := [("R", ⟨[⟨[ast.Symbol.Terminal "T"], none⟩]⟩)]
    tokens := ["T"]
    precs := []
    start := some "R"
    implicit_tokens := none }

/-- The grammar of the source's `test_implicit_tokens_rewrite`:
`%implicit_tokens ws1 ws2 %start S %% S: 'a' | T; T: 'c' |;`. -/
def implicitAST : ast.GrammarAST :=
  { rules := [("S", ⟨[⟨[ast.Symbol.Terminal "a"], none⟩,
                      ⟨[ast.Symbol.Nonterminal "T"], none⟩]⟩),
              ("T", ⟨[⟨[ast.Symbol.Terminal "c"], none⟩, ⟨[], none⟩]⟩)]
    tokens := ["ws1", "ws2", "a", "c"]
    precs := []
    start := some "S"
    implicit_tokens := some ["ws1", "ws2"] }

/-- The grammar of the source's `test_prec_override`. -/
def precAST : ast.GrammarAST :=
  { rules := [("expr", ⟨[
      ⟨[ast.Symbol.Nonterminal "expr", ast.Symbol.Terminal "+",
        ast.Symbol.Nonterminal "expr"], none⟩,
      ⟨[ast.Symbol.Nonterminal "expr", ast.Symbol.Terminal "-",
        ast.Symbol.Nonterminal "expr"], none⟩,
      ⟨[ast.Symbol.Nonterminal "expr", ast.Symbol.Terminal "*",
        ast.Symbol.Nonterminal "expr"], none⟩,
      ⟨[ast.Symbol.Nonterminal "expr", ast.Symbol.Terminal "/",
        ast.Symbol.Nonterminal "expr"], none⟩,
      ⟨[ast.Symbol.Terminal "-", ast.Symbol.Nonterminal "expr"], some "*"⟩,
      ⟨[ast.Symbol.Terminal "id"], none⟩]⟩)]
    tokens := ["+", "-", "*", "/", "id"]
    precs := [("+", ⟨0, AssocKind.Left⟩), ("-", ⟨0, AssocKind.Left⟩),
              ("*", ⟨1, AssocKind.Left⟩), ("/", ⟨1, AssocKind.Left⟩)]
    start := some "expr"
    implicit_tokens := none }

/-- An AST with two implicit tokens recorded in declaration order. -/
def cexAst1 : ast.GrammarAST :=
  { rules := [("S", ⟨[⟨[ast.Symbol.Terminal "a"], none⟩]⟩)]
    tokens := ["a", "b"]
    precs := []
    start := some "S"
    implicit_tokens := some ["a", "b"] }

/-- The same grammar as `cexAst1`, the implicit-token hash set iterated in
the opposite order. -/
def cexAst2 : ast.GrammarAST :=
  { rules := [("S", ⟨[⟨[ast.Symbol.Terminal "a"], none⟩]⟩)]
    tokens := ["a", "b"]
    precs := []
    start := some "S"
    implicit_tokens := some ["b", "a"] }

/-- A two-rule grammar, rules recorded in one iteration order. -/
def ordAst1 : ast.GrammarAST :=
  { rules := [("R", ⟨[⟨[ast.Symbol.Terminal "T"], none⟩]⟩),
              ("S", ⟨[⟨[ast.Symbol.Nonterminal "R"], none⟩]⟩)]
    tokens := ["T"]
    precs := []
    start := some "R"
    implicit_tokens := none }

/-- The same grammar as `ordAst1`, the rules hash map iterated in the
opposite order. -/
def ordAst2 : ast.GrammarAST :=
  { rules := [("S", ⟨[⟨[ast.Symbol.Nonterminal "R"], none⟩]⟩),
              ("R", ⟨[⟨[ast.Symbol.Terminal "T"], none⟩]⟩)]
    tokens := ["T"]
    precs := []
    start := some "R"
    implicit_tokens := none }

/-- A grammar with two rules `"A"` and `"a"`, distinct names that are
equal after case-folding (ASCII, where the embedded folding agrees
exactly with the source's), recorded in one iteration order. -/
def tieAst1 : ast.GrammarAST :=
  { rules := [("A", ⟨[⟨[ast.Symbol.Terminal "x"], none⟩]⟩),
              ("a", ⟨[⟨[ast.Symbol.Terminal "x"], none⟩]⟩)]
    tokens := ["x"]
    precs := []
    start := some "A"
    implicit_tokens := none }

/-- The same grammar as `tieAst1`, the rules hash map iterated in the
opposite order. -/
def tieAst2 : ast.GrammarAST :=
  { rules := [("a", ⟨[⟨[ast.Symbol.Terminal "x"], none⟩]⟩),
              ("A", ⟨[⟨[ast.Symbol.Terminal "x"], none⟩]⟩)]
    tokens := ["x"]
    precs := []
    start := some "A"
    implicit_tokens := none }

/-! ### Repeated markers and the fresh-name allocator -/

theorem repMarker_data_length (m : String) :
    ∀ k, (repMarker m k).data.length = k * m.data.length := by
  intro k
  induction k with
  | zero => simp [repMarker]
  | succ k ih =>
    show ((m ++ repMarker m k).data).length = _
    rw [String.data_append, List.length_append, ih, Nat.succ_mul]
    omega

theorem mem_repMarker_data (m : String) (c : Char) :
    ∀ k, c ∈ (repMarker m k).data ↔ 1 ≤ k ∧ c ∈ m.data := by
  intro k
  induction k with
  | zero => simp [repMarker]
  | succ k ih =>
    show c ∈ (m ++ repMarker m k).data ↔ _
    rw [String.data_append, List.mem_append, ih]
    constructor
    · rintro (h | ⟨_, h⟩) <;> exact ⟨by omega, h⟩
    · rintro ⟨_, h⟩; exact Or.inl h

theorem repMarker_append_marker (m : String) :
    ∀ s, repMarker m s ++ m = repMarker m (s + 1) := by
  intro s
  induction s with
  | zero =>
    show "" ++ m = m ++ repMarker m 0
    rw [String.empty_append]
    exact (String.append_empty m).symm
  | succ s ih =>
    show (m ++ repMarker m s) ++ m = m ++ repMarker m (s + 1)
    rw [String.append_assoc, ih]

theorem data_ne_nil_of_ne_empty {m : String} (hm : m ≠ "") : m.data ≠ [] := by
  intro h
  exact hm (String.ext h)

theorem repMarker_inj (m : String) (hm : m ≠ "") {j k : Nat}
    (h : repMarker m j = repMarker m k) : j = k := by
  have hlen : 0 < m.data.length :=
    List.length_pos.mpr (data_ne_nil_of_ne_empty hm)
  have hd := congrArg (fun s => s.data.length) h
  simp only [repMarker_data_length] at hd
  exact Nat.eq_of_mul_eq_mul_right hlen hd

theorem freshNameGo_spec (m : String) (taken : List String) :
    ∀ (fuel s : Nat), 1 ≤ s →
      (∃ i, i < fuel ∧ repMarker m (s + i) ∉ taken) →
      ∃ k, s ≤ k ∧
        freshNameGo m taken fuel (repMarker m s) = repMarker m k ∧
        repMarker m k ∉ taken ∧
        ∀ j, s ≤ j → j < k → repMarker m j ∈ taken := by
  intro fuel
  induction fuel with
  | zero =>
    rintro s _ ⟨i, hi, _⟩
    omega
  | succ fuel ih =>
    rintro s hs ⟨i, hi, hfree⟩
    by_cases hmem : repMarker m s ∈ taken
    · have hi0 : i ≠ 0 := by
        rintro rfl
        rw [Nat.add_zero] at hfree
        exact hfree hmem
      have hfree' : repMarker m (s + 1 + (i - 1)) ∉ taken := by
        have : s + 1 + (i - 1) = s + i := by omega
        rw [this]; exact hfree
      obtain ⟨k, hk, heq, hnot, hmin⟩ :=
        ih (s + 1) (by omega) ⟨i - 1, by omega, hfree'⟩
      refine ⟨k, by omega, ?_, hnot, ?_⟩
      · show (if repMarker m s ∈ taken then
            freshNameGo m taken fuel (repMarker m s ++ m) else repMarker m s) = _
        rw [if_pos hmem, repMarker_append_marker]
        exact heq
      · intro j hj1 hj2
        rcases Nat.eq_or_lt_of_le hj1 with h | h
        · rw [← h]; exact hmem
        · exact hmin j h hj2
    · refine ⟨s, le_rfl, ?_, hmem, fun j hj1 hj2 => by omega⟩
      show (if repMarker m s ∈ taken then
          freshNameGo m taken fuel (repMarker m s ++ m) else repMarker m s) = _
      rw [if_neg hmem]

theorem exists_free_probe (m : String) (taken : List String) (hm : m ≠ "") :
    ∃ i, i < taken.length + 1 ∧ repMarker m (1 + i) ∉ taken := by
  by_contra hcon
  push_neg at hcon
  have hnd : ((List.range (taken.length + 1)).map
      (fun i => repMarker m (1 + i))).Nodup := by
    refine List.Nodup.map_on ?_ (List.nodup_range _)
    intro x _ y _ hxy
    have := repMarker_inj m hm hxy
    omega
  have hsub : ((List.range (taken.length + 1)).map
      (fun i => repMarker m (1 + i))) ⊆ taken := by
    intro x hx
    simp only [List.mem_map, List.mem_range] at hx
    obtain ⟨i, hi, rfl⟩ := hx
    exact hcon i hi
  have hlen := (List.subperm_of_subset hnd hsub).length_le
  simp only [List.length_map, List.length_range] at hlen
  omega

theorem repMarker_one (m : String) : repMarker m 1 = m := by
  show m ++ repMarker m 0 = m
  exact String.append_empty m

theorem freshName_spec (m : String) (taken : List String) (hm : m ≠ "") :
    ∃ k, 1 ≤ k ∧ freshName m taken = repMarker m k ∧
      repMarker m k ∉ taken ∧ ∀ j, 1 ≤ j → j < k → repMarker m j ∈ taken := by
  obtain ⟨i, hi, hfree⟩ := exists_free_probe m taken hm
  obtain ⟨k, hk, heq, hnot, hmin⟩ :=
    freshNameGo_spec m taken (taken.length + 1) 1 le_rfl ⟨i, hi, hfree⟩
  rw [repMarker_one] at heq
  exact ⟨k, hk, heq, hnot, hmin⟩

theorem freshName_not_mem (m : String) (taken : List String) (hm : m ≠ "") :
    freshName m taken ∉ taken := by
  obtain ⟨k, _, heq, hnot, _⟩ := freshName_spec m taken hm
  rw [heq]
  exact hnot

/-! ### By-name reverse lookup -/

theorem findIdxBeq_go (n : String) :
    ∀ (l : List String), n ∈ l → ∀ s : Nat,
      ∃ i, List.findIdx? (· == n) l s = some (s + i) ∧ l[i]? = some n ∧
        ∀ j, j < i → l[j]? ≠ some n := by
  intro l
  induction l with
  | nil => intro h; exact absurd h (List.not_mem_nil n)
  | cons x xs ih =>
    intro hmem s
    by_cases hx : x = n
    · refine ⟨0, ?_, by simp [hx], fun j hj => by omega⟩
      rw [List.findIdx?_cons, if_pos (by simp [hx]), Nat.add_zero]
    · have hmem' : n ∈ xs := by
        rcases List.mem_cons.mp hmem with h | h
        · exact absurd h.symm hx
        · exact h
      obtain ⟨i, heq, hget, hmin⟩ := ih hmem' (s + 1)
      refine ⟨i + 1, ?_, by simpa using hget, ?_⟩
      · rw [List.findIdx?_cons, if_neg (by simp [hx])]
        rw [heq]
        congr 1
        omega
      · intro j hj
        match j with
        | 0 => simpa using hx
        | j + 1 =>
          have := hmin j (by omega)
          simpa using this

theorem findIdxBeq_not_mem {l : List String} {n : String} (h : n ∉ l) :
    List.findIdx? (· == n) l = none := by
  rw [List.findIdx?_eq_none_iff]
  intro x hx
  simp only [beq_eq_false_iff_ne, ne_eq]
  rintro rfl
  exact h hx

/-- C10: `nonterminal_off` and `terminal_off` return the smallest index at
which the queried name occurs in the respective name table, and have no
defined outcome (the `unwrap` of `position` panics, modelled `none`) when
the name is absent. -/
theorem C10_reverse_lookup_by_name (g : YaccGrammar) (n : String) :
    (n ∈ g.nonterminal_names →
      ∃ i, g.nonterminal_off n = some i ∧ g.nonterminal_names[i]? = some n ∧
        ∀ j, j < i → g.nonterminal_names[j]? ≠ some n) ∧
    (n ∉ g.nonterminal_names → g.nonterminal_off n = none) ∧
    (n ∈ g.terminal_names →
      ∃ i, g.terminal_off n = some i ∧ g.terminal_names[i]? = some n ∧
        ∀ j, j < i → g.terminal_names[j]? ≠ some n) ∧
    (n ∉ g.terminal_names → g.terminal_off n = none) := by
  refine ⟨fun h => ?_, fun h => findIdxBeq_not_mem h, fun h => ?_,
    fun h => findIdxBeq_not_mem h⟩
  · obtain ⟨i, heq, hget, hmin⟩ := findIdxBeq_go n g.nonterminal_names h 0
    exact ⟨i, by simpa using heq, hget, hmin⟩
  · obtain ⟨i, heq, hget, hmin⟩ := findIdxBeq_go n g.terminal_names h 0
    exact ⟨i, by simpa using heq, hget, hmin⟩

/-- Witness for C10 on the minimal grammar: `"R"` occurs at smallest index
1 of the nonterminal table, and `"missing"` is absent from the terminal
table, so `terminal_off` has no defined result there. -/
theorem C10_reverse_lookup_by_name_witness :
    (∃ i, (YaccGrammar.new YaccKind.Original minimalAST).nonterminal_off "R" =
        some i ∧
      (YaccGrammar.new YaccKind.Original minimalAST).nonterminal_names[i]? =
        some "R" ∧
      ∀ j, j < i →
        (YaccGrammar.new YaccKind.Original minimalAST).nonterminal_names[j]? ≠
          some "R") ∧
    (YaccGrammar.new YaccKind.Original minimalAST).terminal_off "missing" =
      none :=
  ⟨(C10_reverse_lookup_by_name (YaccGrammar.new YaccKind.Original minimalAST)
      "R").1 (by decide),
   (C10_reverse_lookup_by_name (YaccGrammar.new YaccKind.Original minimalAST)
      "missing").2.2.2 (by decide)⟩

/-- C8: the synthetic-name allocator, for any non-empty marker and finite
taken-name set, returns the shortest string of the form marker-repeated-k
(k at least 1) not in the taken set (termination is inherent: `freshName`
is total and the characterization shows the probe loop's fuel suffices);
and each of its four uses yields a name absent from the set it probes
(start and the two implicit nonterminals against the rule names, the end
terminal against the token names). -/
theorem C8_fresh_name_allocator (marker : String) (taken : List String)
    (hm : marker ≠ "") :
    (∃ k, 1 ≤ k ∧ freshName marker taken = repMarker marker k ∧
        repMarker marker k ∉ taken ∧
        ∀ j, 1 ≤ j → j < k → repMarker marker j ∈ taken) ∧
    ∀ a : ast.GrammarAST,
      startNontermName a ∉ ruleKeys a ∧ endTermName a ∉ a.tokens ∧
      implicitNontermName a ∉ ruleKeys a ∧
      implicitStartNontermName a ∉ ruleKeys a := by
  refine ⟨freshName_spec marker taken hm, fun a => ⟨?_, ?_, ?_, ?_⟩⟩
  · exact freshName_not_mem _ _ (by decide)
  · exact freshName_not_mem _ _ (by decide)
  · exact freshName_not_mem _ _ (by decide)
  · exact freshName_not_mem _ _ (by decide)

/-- Witness for C8 at marker `"^"` against taken set `["^"]`: the
allocator yields `"^^"`, skipping exactly the taken power. -/
theorem C8_fresh_name_allocator_witness :
    (∃ k, 1 ≤ k ∧ freshName "^" ["^"] = repMarker "^" k ∧
        repMarker "^" k ∉ ["^"] ∧
        ∀ j, 1 ≤ j → j < k → repMarker "^" j ∈ ["^"]) ∧
    ∀ a : ast.GrammarAST,
      startNontermName a ∉ ruleKeys a ∧ endTermName a ∉ a.tokens ∧
      implicitNontermName a ∉ ruleKeys a ∧
      implicitStartNontermName a ∉ ruleKeys a :=
  C8_fresh_name_allocator "^" ["^"] (by decide)

/-- C5: for every constructed grammar, terminal index 0 is the synthetic
end-of-input terminal, it has no declared precedence, `end_term_idx`
returns 0, and the terminal indices greater than 0 list exactly the
user-declared tokens in declaration order. -/
theorem C5_end_terminal (kind : YaccKind) (a : ast.GrammarAST) :
    (YaccGrammar.new kind a).terminal_names = endTermName a :: a.tokens ∧
    (YaccGrammar.new kind a).end_term = 0 ∧
    (YaccGrammar.new kind a).end_term_idx = 0 ∧
    (YaccGrammar.new kind a).term_precedence 0 = some none ∧
    ∀ i : Nat, (YaccGrammar.new kind a).term_name (i + 1) = a.tokens[i]? := by
  have hidx : nameIdx (termNames a) (endTermName a) = 0 := by
    simp [nameIdx, termNames, List.findIdx_cons]
  refine ⟨rfl, hidx, hidx, ?_, fun i => ?_⟩
  · show (termPrecs a)[0]? = some none
    simp [termPrecs]
  · show (termNames a)[i + 1]? = a.tokens[i]?
    simp [termNames]

/-- C9: on an AST with no implicit-token declaration, Eco-kind
construction produces exactly the Original-kind grammar (every table
equal), and records no implicit nonterminal. -/
theorem C9_eco_without_implicit_equals_original (a : ast.GrammarAST)
    (hv : a.validate = true) (h : a.implicit_tokens = none) :
    YaccGrammar.new YaccKind.Eco a = YaccGrammar.new YaccKind.Original a ∧
    (YaccGrammar.new YaccKind.Eco a).implicit_nonterm = none := by
  have h1 : hasImplicit YaccKind.Eco a = false := by
    simp [hasImplicit, h]
  have h2 : hasImplicit YaccKind.Original a = false := rfl
  have hn : nontermNames YaccKind.Eco a = nontermNames YaccKind.Original a := by
    simp [nontermNames, h1, h2]
  have hp : prodsForName YaccKind.Eco a = prodsForName YaccKind.Original a := by
    funext name
    simp [prodsForName, h1, h2, hn]
  have hpl : prodLists YaccKind.Eco a = prodLists YaccKind.Original a := by
    simp [prodLists, hn, hp]
  refine ⟨?_, ?_⟩
  · simp [YaccGrammar.new, hn, hpl, h1, h2]
  · simp [YaccGrammar.new, h1]

/-- Witness for C9 on the minimal grammar (no implicit tokens). -/
theorem C9_eco_without_implicit_equals_original_witness :
    YaccGrammar.new YaccKind.Eco minimalAST =
      YaccGrammar.new YaccKind.Original minimalAST ∧
    (YaccGrammar.new YaccKind.Eco minimalAST).implicit_nonterm = none :=
  C9_eco_without_implicit_equals_original minimalAST (by decide) rfl

/-- C6 (recording the code bug): on the minimal two-production grammar,
every other listed accessor yields the defined outcome `none` at an
out-of-range index, distinguishable from a valid index with an absent
optional attribute (terminal 1 exists with no precedence: `some none`),
but `prod_to_nonterm` indexes the `prods_rules` vector unchecked, so at
production index 2 it has no in-type result (it panics, modelled `none`
of the fallible evaluation), contradicting its own doc comment (grammar.rs
line 309) which promises a `None` return. -/
theorem C6_accessor_totality_bug :
    (YaccGrammar.new YaccKind.Original minimalAST).prods_len = 2 ∧
    (YaccGrammar.new YaccKind.Original minimalAST).prod 2 = none ∧
    (YaccGrammar.new YaccKind.Original minimalAST).prod_precedence 2 = none ∧
    (YaccGrammar.new YaccKind.Original minimalAST).nonterm_to_prods 5 = none ∧
    (YaccGrammar.new YaccKind.Original minimalAST).nonterm_name 5 = none ∧
    (YaccGrammar.new YaccKind.Original minimalAST).term_name 5 = none ∧
    (YaccGrammar.new YaccKind.Original minimalAST).term_precedence 1 =
      some none ∧
    (YaccGrammar.new YaccKind.Original minimalAST).term_precedence 5 = none ∧
    (YaccGrammar.new YaccKind.Original minimalAST).prod_to_nonterm 2 = none := by
  decide

/-! ### Association-list lookups -/

theorem lookup_isSome_iff_mem_keys {β : Type} (l : List (String × β)) (k : String) :
    (List.lookup k l).isSome = true ↔ k ∈ l.map Prod.fst := by
  induction l with
  | nil => simp
  | cons x xs ih =>
    rw [List.lookup_cons]
    by_cases h : k = x.1
    · simp [h]
    · have hb : (k == x.1) = false := by simpa using h
      simp [hb, ih, h]

theorem lookup_eq_some_mem {β : Type} {l : List (String × β)} {k : String}
    {v : β} (h : List.lookup k l = some v) : (k, v) ∈ l := by
  induction l with
  | nil => simp at h
  | cons x xs ih =>
    rw [List.lookup_cons] at h
    obtain ⟨x1, x2⟩ := x
    by_cases hk : k = x1
    · have hb : (k == x1) = true := by simpa using hk
      rw [hb] at h
      have hv : x2 = v := by simpa using h
      subst hk
      subst hv
      exact List.mem_cons_self _ _
    · have hb : (k == x1) = false := by simpa using hk
      simp only [hb] at h
      exact List.mem_cons.mpr (Or.inr (ih h))

/-! ### Position lookups in duplicate-free name lists -/

theorem nameIdx_getElem? : ∀ {names : List String} {n : String}, n ∈ names →
    names[nameIdx names n]? = some n := by
  intro names
  induction names with
  | nil => intro n h; exact absurd h (List.not_mem_nil n)
  | cons x xs ih =>
    intro n h
    by_cases hx : x = n
    · simp [nameIdx, List.findIdx_cons, hx]
    · have hb : (x == n) = false := by simpa using hx
      have hmem : n ∈ xs := by
        rcases List.mem_cons.mp h with h' | h'
        · exact absurd h'.symm hx
        · exact h'
      simpa [nameIdx, List.findIdx_cons, hb] using ih hmem

theorem nameIdx_lt {names : List String} {n : String} (h : n ∈ names) :
    nameIdx names n < names.length :=
  List.getElem?_eq_some_iff.mp (nameIdx_getElem? h) |>.fst

theorem nameIdx_eq_of_getElem? {names : List String} {n : String} {i : Nat}
    (hnd : names.Nodup) (h : names[i]? = some n) : nameIdx names n = i := by
  have hmem : n ∈ names := by
    obtain ⟨hlt, he⟩ := List.getElem?_eq_some_iff.mp h
    exact he ▸ List.getElem_mem hlt
  exact List.getElem?_inj (nameIdx_lt hmem) hnd
    ((nameIdx_getElem? hmem).trans h.symm)

theorem nameIdx_inj {names : List String} {m n : String} (hnd : names.Nodup)
    (hm : m ∈ names) (hn : n ∈ names) (h : nameIdx names m = nameIdx names n) :
    m = n := by
  have h1 := nameIdx_getElem? hm
  rw [h, nameIdx_getElem? hn] at h1
  exact ((Option.some.injEq _ _).mp h1).symm

/-! ### Block-assembly lemmas -/

theorem sumLen_nil : sumLen ([] : List (List α)) = 0 := rfl

theorem sumLen_cons (l : List α) (ls : List (List α)) :
    sumLen (l :: ls) = l.length + sumLen ls := by
  simp [sumLen]

theorem rulesProdsGo_length (ls : List (List α)) :
    ∀ off, (rulesProdsGo off ls).length = ls.length := by
  induction ls with
  | nil => intro off; rfl
  | cons l ls ih => intro off; simp [rulesProdsGo, ih]

theorem rulesProdsGo_getElem? (ls : List (List α)) :
    ∀ off i, (rulesProdsGo off ls)[i]? =
      ls[i]?.map (fun l => List.range' (off + sumLen (ls.take i)) l.length) := by
  induction ls with
  | nil => intro off i; simp [rulesProdsGo]
  | cons l ls ih =>
    intro off i
    match i with
    | 0 => simp [rulesProdsGo, sumLen_nil]
    | i + 1 =>
      have hstep : rulesProdsGo off (l :: ls) =
          List.range' off l.length :: rulesProdsGo (off + l.length) ls := rfl
      rw [hstep, List.getElem?_cons_succ, ih, List.take_succ_cons, sumLen_cons,
        List.getElem?_cons_succ]
      have harith : off + l.length + sumLen (ls.take i) =
          off + (l.length + sumLen (ls.take i)) := by omega
      rw [harith]

theorem prodsRulesGo_length (ls : List (List α)) :
    ∀ i0, (prodsRulesGo i0 ls).length = sumLen ls := by
  induction ls with
  | nil => intro i0; rfl
  | cons l ls ih =>
    intro i0
    simp [prodsRulesGo, sumLen_cons, ih]

theorem flatten_getElem?_block (ls : List (List α)) :
    ∀ i l j, ls[i]? = some l → j < l.length →
      ls.flatten[sumLen (ls.take i) + j]? = l[j]? := by
  induction ls with
  | nil => intro i l j h; simp at h
  | cons x xs ih =>
    intro i l j h hj
    match i with
    | 0 =>
      simp only [List.getElem?_cons_zero, Option.some.injEq] at h
      subst h
      simp only [List.take_zero, sumLen_nil, Nat.zero_add, List.flatten_cons]
      exact List.getElem?_append_left hj
    | i + 1 =>
      simp only [List.getElem?_cons_succ] at h
      simp only [List.take_succ_cons, sumLen_cons, List.flatten_cons]
      rw [List.getElem?_append_right (by omega)]
      have : x.length + sumLen (xs.take i) + j - x.length =
        sumLen (xs.take i) + j := by omega
      rw [this]
      exact ih i l j h hj

theorem prodsRulesGo_blocks (ls : List (List α)) :
    ∀ i0 p, p < sumLen ls →
      ∃ i l j, ls[i]? = some l ∧ j < l.length ∧
        p = sumLen (ls.take i) + j ∧
        (prodsRulesGo i0 ls)[p]? = some (i0 + i) := by
  induction ls with
  | nil => intro i0 p h; rw [sumLen_nil] at h; omega
  | cons x xs ih =>
    intro i0 p h
    rw [sumLen_cons] at h
    by_cases hp : p < x.length
    · refine ⟨0, x, p, by simp, hp, by simp [sumLen_nil], ?_⟩
      show (List.replicate x.length i0 ++ prodsRulesGo (i0 + 1) xs)[p]? = _
      rw [List.getElem?_append_left (by simpa using hp),
        List.getElem?_replicate, if_pos hp, Nat.add_zero]
    · obtain ⟨i, l, j, hget, hj, hpe, hidx⟩ :=
        ih (i0 + 1) (p - x.length) (by omega)
      refine ⟨i + 1, l, j, by simpa using hget, hj, ?_, ?_⟩
      · rw [List.take_succ_cons, sumLen_cons]
        omega
      · show (List.replicate x.length i0 ++ prodsRulesGo (i0 + 1) xs)[p]? = _
        rw [List.getElem?_append_right
            (by simp only [List.length_replicate]; omega),
          List.length_replicate, hidx]
        congr 1
        omega

/-! ### Consequences of validation -/

theorem validate_parts {a : ast.GrammarAST} (hv : a.validate = true) :
    (∃ s, a.start = some s ∧ s ∈ ruleKeys a) ∧
    (ruleKeys a).Nodup ∧ a.tokens.Nodup ∧
    (∀ r ∈ a.rules, r.2.productions ≠ [] ∧
      ∀ p ∈ r.2.productions,
        (∀ sy ∈ p.symbols, ast.Symbol.refOk a sy = true) ∧
        (∀ n, p.precedence = some n → (List.lookup n a.precs).isSome = true)) ∧
    (∀ its, a.implicit_tokens = some its →
      (∀ t ∈ its, t ∈ a.tokens) ∧ its.Nodup) := by
  simp only [ast.GrammarAST.validate, Bool.and_eq_true, List.all_eq_true,
    decide_eq_true_eq] at hv
  obtain ⟨⟨⟨⟨h1, h2⟩, h3⟩, h4⟩, h5⟩ := hv
  refine ⟨?_, h2, h3, ?_, ?_⟩
  · cases hs : a.start with
    | none => rw [hs] at h1; simp at h1
    | some s =>
      rw [hs] at h1
      exact ⟨s, rfl, (lookup_isSome_iff_mem_keys _ _).mp h1⟩
  · intro r hr
    obtain ⟨hne, hall⟩ := h4 r hr
    refine ⟨by simpa using hne, ?_⟩
    intro p hp
    obtain ⟨hsy, hpr⟩ := hall p hp
    refine ⟨hsy, ?_⟩
    intro n hn
    rw [hn] at hpr
    exact hpr
  · intro its hits
    rw [hits] at h5
    simp only [Bool.and_eq_true, List.all_eq_true, decide_eq_true_eq] at h5
    obtain ⟨h5a, h5b⟩ := h5
    exact ⟨fun t ht => by simpa using h5a t ht, h5b⟩

theorem validate_lookup_rule {a : ast.GrammarAST} (hv : a.validate = true)
    {name : String} (h : name ∈ ruleKeys a) :
    ∃ r, List.lookup name a.rules = some r ∧ r.productions ≠ [] ∧
      ∀ p ∈ r.productions,
        (∀ sy ∈ p.symbols, ast.Symbol.refOk a sy = true) ∧
        (∀ n, p.precedence = some n → (List.lookup n a.precs).isSome = true) := by
  have hs : (List.lookup name a.rules).isSome = true :=
    (lookup_isSome_iff_mem_keys _ _).mpr h
  obtain ⟨r, hr⟩ := Option.isSome_iff_exists.mp hs
  have hmem : (name, r) ∈ a.rules := lookup_eq_some_mem hr
  obtain ⟨hne, hall⟩ := ((validate_parts hv).2.2.2.1) (name, r) hmem
  exact ⟨r, hr, hne, hall⟩

/-! ### The synthetic names are pairwise distinct and not rule keys -/

theorem repMarker_ne_of_char {m1 m2 : String} {k j : Nat} (c : Char)
    (h1 : 1 ≤ k) (hc1 : c ∈ m1.data) (hc2 : c ∉ m2.data) :
    repMarker m1 k ≠ repMarker m2 j := by
  intro he
  have hm : c ∈ (repMarker m2 j).data := by
    rw [← he]
    exact (mem_repMarker_data _ _ _).mpr ⟨h1, hc1⟩
  exact hc2 ((mem_repMarker_data _ _ _).mp hm).2

theorem synthNames_distinct (a : ast.GrammarAST) :
    startNontermName a ≠ implicitNontermName a ∧
    startNontermName a ≠ implicitStartNontermName a ∧
    implicitNontermName a ≠ implicitStartNontermName a := by
  obtain ⟨k1, h1, e1, _, _⟩ := freshName_spec "^" (ruleKeys a) (by decide)
  obtain ⟨k2, h2, e2, _, _⟩ := freshName_spec "~" (ruleKeys a) (by decide)
  obtain ⟨k3, h3, e3, _, _⟩ := freshName_spec "^~" (ruleKeys a) (by decide)
  refine ⟨?_, ?_, ?_⟩
  · show freshName "^" (ruleKeys a) ≠ freshName "~" (ruleKeys a)
    rw [e1, e2]
    exact repMarker_ne_of_char '^' h1 (by decide) (by decide)
  · show freshName "^" (ruleKeys a) ≠ freshName "^~" (ruleKeys a)
    rw [e1, e3]
    exact (repMarker_ne_of_char '~' h3 (by decide) (by decide)).symm
  · show freshName "~" (ruleKeys a) ≠ freshName "^~" (ruleKeys a)
    rw [e2, e3]
    exact (repMarker_ne_of_char '^' h3 (by decide) (by decide)).symm

theorem startNonterm_not_key (a : ast.GrammarAST) :
    startNontermName a ∉ ruleKeys a :=
  freshName_not_mem _ _ (by decide)

theorem implicitNonterm_not_key (a : ast.GrammarAST) :
    implicitNontermName a ∉ ruleKeys a :=
  freshName_not_mem _ _ (by decide)

theorem implicitStartNonterm_not_key (a : ast.GrammarAST) :
    implicitStartNontermName a ∉ ruleKeys a :=
  freshName_not_mem _ _ (by decide)

theorem endTerm_not_token (a : ast.GrammarAST) : endTermName a ∉ a.tokens :=
  freshName_not_mem _ _ (by decide)

/-! ### The sorted nonterminal name list -/

theorem nontermNames_perm (kind : YaccKind) (a : ast.GrammarAST) :
    (nontermNames kind a).Perm (preSortNames kind a) :=
  List.perm_insertionSort strCmpLeP (preSortNames kind a)

theorem mem_nontermNames {kind : YaccKind} {a : ast.GrammarAST} {x : String} :
    x ∈ nontermNames kind a ↔
      x = startNontermName a ∨
      (hasImplicit kind a = true ∧
        (x = implicitNontermName a ∨ x = implicitStartNontermName a)) ∨
      x ∈ ruleKeys a := by
  rw [(nontermNames_perm kind a).mem_iff, preSortNames]
  by_cases h : hasImplicit kind a
  · rw [if_pos h]
    simp only [List.mem_append, List.mem_singleton, List.mem_cons,
      List.not_mem_nil, or_false, h, true_and]
    tauto
  · rw [if_neg h]
    have hf : hasImplicit kind a = false := by
      revert h
      cases hasImplicit kind a <;> simp
    simp only [List.mem_append, List.mem_singleton, List.nil_append, hf,
      Bool.false_eq_true, false_and, false_or, List.not_mem_nil, or_false]

theorem preSortNames_nodup (kind : YaccKind) (a : ast.GrammarAST)
    (hv : a.validate = true) : (preSortNames kind a).Nodup := by
  have hkeys : (ruleKeys a).Nodup := (validate_parts hv).2.1
  obtain ⟨hd1, hd2, hd3⟩ := synthNames_distinct a
  rw [preSortNames]
  by_cases h : hasImplicit kind a
  · rw [if_pos h]
    show (startNontermName a :: implicitNontermName a ::
      implicitStartNontermName a :: ruleKeys a).Nodup
    refine List.nodup_cons.mpr ⟨?_, List.nodup_cons.mpr ⟨?_,
      List.nodup_cons.mpr ⟨?_, hkeys⟩⟩⟩
    · simp only [List.mem_cons]
      push_neg
      exact ⟨hd1, hd2, startNonterm_not_key a⟩
    · simp only [List.mem_cons]
      push_neg
      exact ⟨hd3, implicitNonterm_not_key a⟩
    · exact implicitStartNonterm_not_key a
  · rw [if_neg h]
    show (startNontermName a :: ruleKeys a).Nodup
    exact List.nodup_cons.mpr ⟨startNonterm_not_key a, hkeys⟩

theorem nontermNames_nodup (kind : YaccKind) (a : ast.GrammarAST)
    (hv : a.validate = true) : (nontermNames kind a).Nodup :=
  (nontermNames_perm kind a).nodup_iff.mpr (preSortNames_nodup kind a hv)

/-! ### Role dispatch: the productions generated for each nonterminal -/

theorem prodsForName_start_eq (kind : YaccKind) (a : ast.GrammarAST) :
    prodsForName kind a (startNontermName a) =
      [([GrmSymbol.Nonterminal (nameIdx (nontermNames kind a)
          (if hasImplicit kind a then implicitStartNontermName a
           else a.start.getD ""))], none)] := by
  rw [prodsForName]
  simp

theorem prodsForName_implicitStart_eq (kind : YaccKind) (a : ast.GrammarAST)
    (himp : hasImplicit kind a = true) :
    prodsForName kind a (implicitStartNontermName a) =
      [([GrmSymbol.Nonterminal
           (nameIdx (nontermNames kind a) (implicitNontermName a)),
         GrmSymbol.Nonterminal
           (nameIdx (nontermNames kind a) (a.start.getD ""))], none)] := by
  have h1 : (implicitStartNontermName a == startNontermName a) = false := by
    simp only [beq_eq_false_iff_ne, ne_eq]
    exact fun e => (synthNames_distinct a).2.1 e.symm
  rw [prodsForName]
  simp [h1, himp]

theorem prodsForName_implicit_eq (kind : YaccKind) (a : ast.GrammarAST)
    (himp : hasImplicit kind a = true) :
    prodsForName kind a (implicitNontermName a) =
      ((a.implicit_tokens.getD []).map
        (fun t => ([GrmSymbol.Terminal (nameIdx (termNames a) t)], none))) ++
      [([], none)] := by
  have h1 : (implicitNontermName a == startNontermName a) = false := by
    simp only [beq_eq_false_iff_ne, ne_eq]
    exact fun e => (synthNames_distinct a).1 e.symm
  have h2 : (implicitNontermName a == implicitStartNontermName a) = false := by
    simp only [beq_eq_false_iff_ne, ne_eq]
    exact (synthNames_distinct a).2.2
  rw [prodsForName]
  simp [h1, h2, himp]

theorem prodsForName_key_eq (kind : YaccKind) (a : ast.GrammarAST)
    {name : String} (h : name ∈ ruleKeys a) :
    prodsForName kind a name =
      ((List.lookup name a.rules).getD ⟨[]⟩).productions.map (fun p =>
        (lowerSyms (nontermNames kind a) (termNames a)
           (if hasImplicit kind a then
              some (nameIdx (nontermNames kind a) (implicitNontermName a))
            else none) p.symbols,
         prodPrec a.precs p)) := by
  have h1 : (name == startNontermName a) = false := by
    simp only [beq_eq_false_iff_ne, ne_eq]
    rintro rfl
    exact startNonterm_not_key a h
  have h2 : (name == implicitStartNontermName a) = false := by
    simp only [beq_eq_false_iff_ne, ne_eq]
    rintro rfl
    exact implicitStartNonterm_not_key a h
  have h3 : (name == implicitNontermName a) = false := by
    simp only [beq_eq_false_iff_ne, ne_eq]
    rintro rfl
    exact implicitNonterm_not_key a h
  rw [prodsForName]
  simp [h1, h2, h3]

theorem prodsForName_ne_nil (kind : YaccKind) (a : ast.GrammarAST)
    (hv : a.validate = true) {name : String}
    (hmem : name ∈ nontermNames kind a) :
    prodsForName kind a name ≠ [] := by
  rcases mem_nontermNames.mp hmem with rfl | ⟨himp, rfl | rfl⟩ | hk
  · rw [prodsForName_start_eq]
    simp
  · rw [prodsForName_implicit_eq kind a himp]
    simp
  · rw [prodsForName_implicitStart_eq kind a himp]
    simp
  · rw [prodsForName_key_eq kind a hk]
    obtain ⟨r, hr, hne, _⟩ := validate_lookup_rule hv hk
    rw [hr]
    simpa using hne

/-! ### The grammar's tables, read at one nonterminal's block -/

theorem new_tables_at_name (kind : YaccKind) (a : ast.GrammarAST)
    (hv : a.validate = true) {name : String}
    (hmem : name ∈ nontermNames kind a) :
    (prodLists kind a)[nameIdx (nontermNames kind a) name]? =
      some (prodsForName kind a name) ∧
    (YaccGrammar.new kind a).rules_prods[nameIdx (nontermNames kind a) name]? =
      some (List.range'
        (sumLen ((prodLists kind a).take (nameIdx (nontermNames kind a) name)))
        (prodsForName kind a name).length) ∧
    ∀ pr j, (prodsForName kind a name)[j]? = some pr →
      (YaccGrammar.new kind a).prods[sumLen ((prodLists kind a).take
          (nameIdx (nontermNames kind a) name)) + j]? = some pr.1 ∧
      (YaccGrammar.new kind a).prod_precs[sumLen ((prodLists kind a).take
          (nameIdx (nontermNames kind a) name)) + j]? = some pr.2 := by
  have hpl : (prodLists kind a)[nameIdx (nontermNames kind a) name]? =
      some (prodsForName kind a name) := by
    rw [prodLists, List.getElem?_map, nameIdx_getElem? hmem, Option.map_some']
  refine ⟨hpl, ?_, ?_⟩
  · show (rulesProdsGo 0 (prodLists kind a))[_]? = _
    rw [rulesProdsGo_getElem?, hpl, Option.map_some', Nat.zero_add]
  · intro pr j hj
    have hjlt : j < (prodsForName kind a name).length :=
      (List.getElem?_eq_some_iff.mp hj).fst
    have hflat := flatten_getElem?_block (prodLists kind a) _ _ j hpl hjlt
    constructor
    · show ((prodLists kind a).flatten.map Prod.fst)[_]? = _
      rw [List.getElem?_map, hflat, hj, Option.map_some']
    · show ((prodLists kind a).flatten.map Prod.snd)[_]? = _
      rw [List.getElem?_map, hflat, hj, Option.map_some']

/-- C1: for every validated AST and kind, the augmented start nonterminal
(at its table index `si`) owns exactly one production, namely
`start_prod`; its symbol sequence is the single `Nonterminal` reference to
the table index `ti` of the implicit-start wrapper name when implicit
tokens are enabled and of the user-declared start rule otherwise; and that
production carries no precedence. -/
theorem C1_start_production (kind : YaccKind) (a : ast.GrammarAST)
    (hv : a.validate = true) :
    ∃ si ti : Nat,
      (YaccGrammar.new kind a).nonterminal_names[si]? =
        some (startNontermName a) ∧
      (YaccGrammar.new kind a).nonterminal_names[ti]? =
        some (if hasImplicit kind a then implicitStartNontermName a
              else a.start.getD "") ∧
      (YaccGrammar.new kind a).rules_prods[si]? =
        some [(YaccGrammar.new kind a).start_prod] ∧
      (YaccGrammar.new kind a).prod (YaccGrammar.new kind a).start_prod =
        some [GrmSymbol.Nonterminal ti] ∧
      (YaccGrammar.new kind a).prod_precedence
        (YaccGrammar.new kind a).start_prod = some none := by
  have hsm : startNontermName a ∈ nontermNames kind a :=
    mem_nontermNames.mpr (Or.inl rfl)
  have htm : (if hasImplicit kind a then implicitStartNontermName a
      else a.start.getD "") ∈ nontermNames kind a := by
    by_cases himp : hasImplicit kind a
    · rw [if_pos himp]
      exact mem_nontermNames.mpr (Or.inr (Or.inl ⟨himp, Or.inr rfl⟩))
    · rw [if_neg himp]
      obtain ⟨s, hs, hsk⟩ := (validate_parts hv).1
      rw [hs]
      exact mem_nontermNames.mpr (Or.inr (Or.inr hsk))
  obtain ⟨hpl, hrp, hpj⟩ := new_tables_at_name kind a hv hsm
  rw [prodsForName_start_eq] at hrp hpj
  simp only [List.length_singleton, List.range'_one] at hrp
  have hsp : (YaccGrammar.new kind a).start_prod =
      sumLen ((prodLists kind a).take
        (nameIdx (nontermNames kind a) (startNontermName a))) := by
    show ((rulesProdsGo 0 (prodLists kind a)).getD
      (nameIdx (nontermNames kind a) (startNontermName a)) []).getD 0 0 = _
    have : (rulesProdsGo 0 (prodLists kind a))[nameIdx (nontermNames kind a)
        (startNontermName a)]? =
        some [sumLen ((prodLists kind a).take
          (nameIdx (nontermNames kind a) (startNontermName a)))] := hrp
    rw [List.getD_eq_getElem?_getD, List.getD_eq_getElem?_getD, this]
    rfl
  refine ⟨nameIdx (nontermNames kind a) (startNontermName a),
    nameIdx (nontermNames kind a)
      (if hasImplicit kind a then implicitStartNontermName a
       else a.start.getD ""),
    nameIdx_getElem? hsm, nameIdx_getElem? htm, ?_, ?_, ?_⟩
  · rw [hrp, hsp]
  · have := (hpj _ 0 rfl).1
    rw [Nat.add_zero] at this
    show (YaccGrammar.new kind a).prods[(YaccGrammar.new kind a).start_prod]? =
      _
    rw [hsp]
    exact this
  · have := (hpj _ 0 rfl).2
    rw [Nat.add_zero] at this
    show (YaccGrammar.new kind a).prod_precs[
      (YaccGrammar.new kind a).start_prod]? = _
    rw [hsp]
    exact this

/-- Witness for C1 on the implicit-token grammar of the source's tests. -/
theorem C1_start_production_witness :
    ∃ si ti : Nat,
      (YaccGrammar.new YaccKind.Eco implicitAST).nonterminal_names[si]? =
        some (startNontermName implicitAST) ∧
      (YaccGrammar.new YaccKind.Eco implicitAST).nonterminal_names[ti]? =
        some (if hasImplicit YaccKind.Eco implicitAST then
                implicitStartNontermName implicitAST
              else implicitAST.start.getD "") ∧
      (YaccGrammar.new YaccKind.Eco implicitAST).rules_prods[si]? =
        some [(YaccGrammar.new YaccKind.Eco implicitAST).start_prod] ∧
      (YaccGrammar.new YaccKind.Eco implicitAST).prod
          (YaccGrammar.new YaccKind.Eco implicitAST).start_prod =
        some [GrmSymbol.Nonterminal ti] ∧
      (YaccGrammar.new YaccKind.Eco implicitAST).prod_precedence
          (YaccGrammar.new YaccKind.Eco implicitAST).start_prod = some none :=
  C1_start_production YaccKind.Eco implicitAST (by decide)

/-- C2: in every grammar built from a validated AST, every nonterminal
index below `nonterms_len` owns a non-empty production-index list, and
every production index below `prods_len` maps back through `prods_rules`
to a valid nonterminal index whose `rules_prods` entry contains it. -/
theorem C2_ownership_maps_agree (kind : YaccKind) (a : ast.GrammarAST)
    (hv : a.validate = true) :
    (∀ i, i < (YaccGrammar.new kind a).nonterms_len →
      ∃ pl, (YaccGrammar.new kind a).rules_prods[i]? = some pl ∧ pl ≠ []) ∧
    (∀ p, p < (YaccGrammar.new kind a).prods_len →
      ∃ i pl, (YaccGrammar.new kind a).prods_rules[p]? = some i ∧
        i < (YaccGrammar.new kind a).nonterms_len ∧
        (YaccGrammar.new kind a).rules_prods[i]? = some pl ∧ p ∈ pl) := by
  have hlen : (prodLists kind a).length = (nontermNames kind a).length := by
    rw [prodLists, List.length_map]
  constructor
  · intro i hi
    have hi' : i < (nontermNames kind a).length := hi
    have hname : (nontermNames kind a)[i]? =
        some ((nontermNames kind a)[i]) := List.getElem?_eq_getElem hi'
    have hmem : (nontermNames kind a)[i] ∈ nontermNames kind a :=
      List.getElem_mem hi'
    have hpl : (prodLists kind a)[i]? =
        some (prodsForName kind a ((nontermNames kind a)[i])) := by
      rw [prodLists, List.getElem?_map, hname, Option.map_some']
    refine ⟨List.range' (sumLen ((prodLists kind a).take i))
      (prodsForName kind a ((nontermNames kind a)[i])).length, ?_, ?_⟩
    · show (rulesProdsGo 0 (prodLists kind a))[i]? = _
      rw [rulesProdsGo_getElem?, hpl, Option.map_some', Nat.zero_add]
    · rw [ne_eq, List.range'_eq_nil]
      have := prodsForName_ne_nil kind a hv hmem
      simpa [List.length_eq_zero] using this
  · intro p hp
    have hp' : p < sumLen (prodLists kind a) := by
      have : (YaccGrammar.new kind a).prods_len =
          sumLen (prodLists kind a) := by
        show (prodLists kind a).flatten.length = _
        rw [List.length_flatten, sumLen]
      rw [this] at hp
      exact hp
    obtain ⟨i, l, j, hget, hj, hpe, hidx⟩ :=
      prodsRulesGo_blocks (prodLists kind a) 0 p hp'
    refine ⟨i, List.range' (sumLen ((prodLists kind a).take i)) l.length,
      ?_, ?_, ?_, ?_⟩
    · show (prodsRulesGo 0 (prodLists kind a))[p]? = _
      rw [hidx, Nat.zero_add]
    · show i < (nontermNames kind a).length
      rw [← hlen]
      exact (List.getElem?_eq_some_iff.mp hget).fst
    · show (rulesProdsGo 0 (prodLists kind a))[i]? = _
      rw [rulesProdsGo_getElem?, hget, Option.map_some', Nat.zero_add]
    · rw [List.mem_range'_1]
      omega

/-- Witness for C2 on the minimal grammar, at nonterminal 1, production 1. -/
theorem C2_ownership_maps_agree_witness :
    (∃ pl, (YaccGrammar.new YaccKind.Original minimalAST).rules_prods[1]? =
      some pl ∧ pl ≠ []) ∧
    (∃ i pl,
      (YaccGrammar.new YaccKind.Original minimalAST).prods_rules[1]? =
        some i ∧
      i < (YaccGrammar.new YaccKind.Original minimalAST).nonterms_len ∧
      (YaccGrammar.new YaccKind.Original minimalAST).rules_prods[i]? =
        some pl ∧ 1 ∈ pl) :=
  ⟨(C2_ownership_maps_agree YaccKind.Original minimalAST (by decide)).1 1
      (by decide),
   (C2_ownership_maps_agree YaccKind.Original minimalAST (by decide)).2 1
      (by decide)⟩

/-! ### Shape of implicit-token injection -/

theorem lowerSyms_nil (ntNames tNames : List String) (implicitIdx : Option Nat) :
    lowerSyms ntNames tNames implicitIdx [] = [] := rfl

theorem lowerSyms_cons (ntNames tNames : List String) (implicitIdx : Option Nat)
    (sy : ast.Symbol) (rest : List ast.Symbol) :
    lowerSyms ntNames tNames implicitIdx (sy :: rest) =
      lowerSym ntNames tNames implicitIdx sy ++
        lowerSyms ntNames tNames implicitIdx rest := by
  rw [lowerSyms, List.map_cons, List.flatten_cons, lowerSyms]

theorem implicitInjected_positions {imp : Nat} {L : List GrmSymbol}
    (h : ImplicitInjected imp L) :
    (∀ q t, L[q]? = some (GrmSymbol.Terminal t) →
      L[q + 1]? = some (GrmSymbol.Nonterminal imp)) ∧
    (∀ q, L[q + 1]? = some (GrmSymbol.Nonterminal imp) →
      ∃ t, L[q]? = some (GrmSymbol.Terminal t)) ∧
    L[0]? ≠ some (GrmSymbol.Nonterminal imp) := by
  induction h with
  | nil => refine ⟨fun q t h => by simp at h, fun q h => by simp at h, by simp⟩
  | nt hne _ ih =>
    obtain ⟨ih1, ih2, ih3⟩ := ih
    refine ⟨?_, ?_, ?_⟩
    · intro q t hq
      match q with
      | 0 => simp at hq
      | q + 1 =>
        rw [List.getElem?_cons_succ] at hq
        rw [List.getElem?_cons_succ]
        exact ih1 q t hq
    · intro q hq
      rw [List.getElem?_cons_succ] at hq
      match q with
      | 0 => exact absurd hq ih3
      | q + 1 =>
        obtain ⟨t, ht⟩ := ih2 q hq
        exact ⟨t, by rw [List.getElem?_cons_succ]; exact ht⟩
    · simp only [List.getElem?_cons_zero, ne_eq, Option.some.injEq]
      intro hcon
      exact hne (GrmSymbol.Nonterminal.injEq _ _ ▸ hcon)
  | term _ ih =>
    obtain ⟨ih1, ih2, ih3⟩ := ih
    refine ⟨?_, ?_, by simp⟩
    · intro q t hq
      match q with
      | 0 => simp
      | 1 => simp at hq
      | q + 2 =>
        rw [List.getElem?_cons_succ, List.getElem?_cons_succ] at hq
        rw [List.getElem?_cons_succ, List.getElem?_cons_succ]
        exact ih1 q t hq
    · intro q hq
      match q with
      | 0 => exact ⟨_, rfl⟩
      | 1 =>
        rw [List.getElem?_cons_succ, List.getElem?_cons_succ] at hq
        exact absurd hq ih3
      | q + 2 =>
        rw [List.getElem?_cons_succ, List.getElem?_cons_succ] at hq
        obtain ⟨t, ht⟩ := ih2 q hq
        refine ⟨t, ?_⟩
        rw [List.getElem?_cons_succ, List.getElem?_cons_succ]
        exact ht

theorem key_nameIdx_ne_implicit (kind : YaccKind) (a : ast.GrammarAST)
    (hv : a.validate = true) (himp : hasImplicit kind a = true) {n : String}
    (hk : n ∈ ruleKeys a) :
    nameIdx (nontermNames kind a) n ≠
      nameIdx (nontermNames kind a) (implicitNontermName a) := by
  intro he
  have hnm : n ∈ nontermNames kind a := mem_nontermNames.mpr (Or.inr (Or.inr hk))
  have him : implicitNontermName a ∈ nontermNames kind a :=
    mem_nontermNames.mpr (Or.inr (Or.inl ⟨himp, Or.inl rfl⟩))
  have := nameIdx_inj (nontermNames_nodup kind a hv) hnm him he
  exact implicitNonterm_not_key a (this ▸ hk)

theorem lowerSyms_implicitInjected (kind : YaccKind) (a : ast.GrammarAST)
    (hv : a.validate = true) (himp : hasImplicit kind a = true)
    {syms : List ast.Symbol}
    (hsy : ∀ sy ∈ syms, ast.Symbol.refOk a sy = true) :
    ImplicitInjected (nameIdx (nontermNames kind a) (implicitNontermName a))
      (lowerSyms (nontermNames kind a) (termNames a)
        (some (nameIdx (nontermNames kind a) (implicitNontermName a))) syms) := by
  induction syms with
  | nil => exact ImplicitInjected.nil
  | cons sy rest ih =>
    have hrest := ih (fun s hs => hsy s (List.mem_cons_of_mem sy hs))
    rw [lowerSyms_cons]
    cases sy with
    | Nonterminal n =>
      have hok := hsy (ast.Symbol.Nonterminal n) (List.mem_cons_self _ _)
      have hk : n ∈ ruleKeys a := by
        rw [ast.Symbol.refOk] at hok
        exact (lookup_isSome_iff_mem_keys _ _).mp hok
      exact ImplicitInjected.nt
        (key_nameIdx_ne_implicit kind a hv himp hk) hrest
    | Terminal n =>
      exact ImplicitInjected.term hrest

/-! ### The two formulations of the default-precedence scan agree -/

theorem precFromSyms_eq_firstTerminal (precs : List (String × Precedence)) :
    ∀ l : List ast.Symbol, precFromSyms precs l =
      match firstTerminalName l with
      | some t => List.lookup t precs
      | none => none := by
  intro l
  induction l with
  | nil => rfl
  | cons sy rest ih =>
    cases sy with
    | Terminal n => rfl
    | Nonterminal n =>
      rw [precFromSyms, firstTerminalName]
      exact ih

theorem firstTerminalName_append (xs ys : List ast.Symbol) :
    firstTerminalName (xs ++ ys) =
      match firstTerminalName xs with
      | some t => some t
      | none => firstTerminalName ys := by
  induction xs with
  | nil => rfl
  | cons sy rest ih =>
    cases sy with
    | Terminal n => rfl
    | Nonterminal n =>
      rw [List.cons_append, firstTerminalName, firstTerminalName]
      exact ih

theorem firstTerminal_reverse_eq_last (l : List ast.Symbol) :
    firstTerminalName l.reverse = lastTerminalName l := by
  induction l with
  | nil => rfl
  | cons sy rest ih =>
    rw [List.reverse_cons, firstTerminalName_append, ih]
    cases sy with
    | Terminal n =>
      rw [lastTerminalName]
      cases lastTerminalName rest with
      | none => rfl
      | some t => rfl
    | Nonterminal n =>
      rw [lastTerminalName]
      cases lastTerminalName rest with
      | none => rfl
      | some t => rfl

theorem prodPrec_eq_specProdPrec (precs : List (String × Precedence))
    (p : ast.Production) : prodPrec precs p = specProdPrec precs p := by
  rw [prodPrec, specProdPrec]
  cases p.precedence with
  | some n => rfl
  | none =>
    rw [precFromSyms_eq_firstTerminal, firstTerminal_reverse_eq_last]

/-! ### The block of an ordinary user rule -/

theorem user_rule_block (kind : YaccKind) (a : ast.GrammarAST)
    (hv : a.validate = true) {name : String} (hk : name ∈ ruleKeys a) :
    ∃ r : ast.Rule, List.lookup name a.rules = some r ∧
    ∃ pl : List Nat, (YaccGrammar.new kind a).rules_prods[
        nameIdx (nontermNames kind a) name]? = some pl ∧
      pl.length = r.productions.length ∧
      ∀ (j : Nat) (p : ast.Production), r.productions[j]? = some p →
        ∃ pid : Nat, pl[j]? = some pid ∧
          (YaccGrammar.new kind a).prods[pid]? =
            some (lowerSyms (nontermNames kind a) (termNames a)
              (if hasImplicit kind a then
                 some (nameIdx (nontermNames kind a) (implicitNontermName a))
               else none) p.symbols) ∧
          (YaccGrammar.new kind a).prod_precs[pid]? =
            some (prodPrec a.precs p) := by
  obtain ⟨r, hr, _, _⟩ := validate_lookup_rule hv hk
  have hmem : name ∈ nontermNames kind a :=
    mem_nontermNames.mpr (Or.inr (Or.inr hk))
  obtain ⟨hpl, hrp, hpj⟩ := new_tables_at_name kind a hv hmem
  rw [prodsForName_key_eq kind a hk, hr] at hrp hpj
  simp only [Option.getD_some, List.length_map] at hrp hpj
  refine ⟨r, hr, List.range' (sumLen ((prodLists kind a).take
      (nameIdx (nontermNames kind a) name))) r.productions.length,
    hrp, by rw [List.length_range'], ?_⟩
  intro j p hj
  have hjlt : j < r.productions.length :=
    (List.getElem?_eq_some_iff.mp hj).fst
  refine ⟨sumLen ((prodLists kind a).take
    (nameIdx (nontermNames kind a) name)) + j, ?_, ?_⟩
  · rw [List.getElem?_range' _ _ hjlt, Nat.one_mul]
  · have hmap : (r.productions.map (fun p =>
        (lowerSyms (nontermNames kind a) (termNames a)
          (if hasImplicit kind a then
             some (nameIdx (nontermNames kind a) (implicitNontermName a))
           else none) p.symbols,
         prodPrec a.precs p)))[j]? =
        some (lowerSyms (nontermNames kind a) (termNames a)
          (if hasImplicit kind a then
             some (nameIdx (nontermNames kind a) (implicitNontermName a))
           else none) p.symbols,
         prodPrec a.precs p) := by
      rw [List.getElem?_map, hj, Option.map_some']
    exact hpj _ j hmap

/-- C4: every lowered user production's recorded precedence follows the
spec's rule, computed from the original (pre-injection) AST symbols: an
explicit override directive yields the named symbol's declared precedence
(which validation guarantees exists), and otherwise the rightmost
terminal of the original symbol sequence decides — its declared
precedence if it has one, none if it has none or if the production has no
terminal at all. -/
theorem C4_production_precedence (kind : YaccKind) (a : ast.GrammarAST)
    (hv : a.validate = true) {name : String} (hk : name ∈ ruleKeys a) :
    ∃ r : ast.Rule, List.lookup name a.rules = some r ∧
    ∃ pl : List Nat, (YaccGrammar.new kind a).rules_prods[
        nameIdx (nontermNames kind a) name]? = some pl ∧
      pl.length = r.productions.length ∧
      ∀ (j : Nat) (p : ast.Production), r.productions[j]? = some p →
        ∃ pid : Nat, pl[j]? = some pid ∧
          (YaccGrammar.new kind a).prod_precedence pid =
            some (specProdPrec a.precs p) ∧
          ∀ n, p.precedence = some n →
            ∃ q : Precedence, List.lookup n a.precs = some q ∧
              (YaccGrammar.new kind a).prod_precedence pid = some (some q) := by
  obtain ⟨r, hr, pl, hpl, hlen, hblock⟩ := user_rule_block kind a hv hk
  refine ⟨r, hr, pl, hpl, hlen, ?_⟩
  intro j p hj
  obtain ⟨pid, hpid, _, hprec⟩ := hblock j p hj
  refine ⟨pid, hpid, ?_, ?_⟩
  · show (YaccGrammar.new kind a).prod_precs[pid]? = _
    rw [hprec, prodPrec_eq_specProdPrec]
  · intro n hn
    obtain ⟨_, _, _, hrules, _⟩ := validate_parts hv
    have hp : p ∈ r.productions := by
      obtain ⟨hlt, he⟩ := List.getElem?_eq_some_iff.mp hj
      exact he ▸ List.getElem_mem hlt
    obtain ⟨_, hpr⟩ := (hrules (name, r) (lookup_eq_some_mem hr)).2 p hp
    obtain ⟨q, hq⟩ := Option.isSome_iff_exists.mp (hpr n hn)
    refine ⟨q, hq, ?_⟩
    show (YaccGrammar.new kind a).prod_precs[pid]? = _
    rw [hprec, prodPrec, hn]
    show some (List.lookup n a.precs) = some (some q)
    rw [hq]

/-- Witness for C4 on the precedence-override grammar of the source's
tests, at rule `"expr"`. -/
theorem C4_production_precedence_witness :
    ∃ r : ast.Rule, List.lookup "expr" precAST.rules = some r ∧
    ∃ pl : List Nat, (YaccGrammar.new YaccKind.Original precAST).rules_prods[
        nameIdx (nontermNames YaccKind.Original precAST) "expr"]? = some pl ∧
      pl.length = r.productions.length ∧
      ∀ (j : Nat) (p : ast.Production), r.productions[j]? = some p →
        ∃ pid : Nat, pl[j]? = some pid ∧
          (YaccGrammar.new YaccKind.Original precAST).prod_precedence pid =
            some (specProdPrec precAST.precs p) ∧
          ∀ n, p.precedence = some n →
            ∃ q : Precedence, List.lookup n precAST.precs = some q ∧
              (YaccGrammar.new YaccKind.Original precAST).prod_precedence pid =
                some (some q) :=
  C4_production_precedence YaccKind.Original precAST (by decide) (by decide)

/-- C3: with implicit tokens enabled, the implicit nonterminal owns
exactly one production per declared implicit token — a single-terminal
production — plus a final empty one; and in every ordinary user rule's
lowered production a reference to the implicit nonterminal appears
immediately after every terminal symbol and nowhere else (never after a
nonterminal reference, never without a directly preceding terminal). -/
theorem C3_implicit_token_injection (kind : YaccKind) (a : ast.GrammarAST)
    (hv : a.validate = true) (himp : hasImplicit kind a = true) :
    (∃ pl : List Nat,
      (YaccGrammar.new kind a).rules_prods[
        nameIdx (nontermNames kind a) (implicitNontermName a)]? = some pl ∧
      pl.length = (a.implicit_tokens.getD []).length + 1 ∧
      (∀ (j : Nat) (t : String), (a.implicit_tokens.getD [])[j]? = some t →
        ∃ pid : Nat, pl[j]? = some pid ∧
          (YaccGrammar.new kind a).prod pid =
            some [GrmSymbol.Terminal (nameIdx (termNames a) t)]) ∧
      (∃ pid : Nat, pl[(a.implicit_tokens.getD []).length]? = some pid ∧
        (YaccGrammar.new kind a).prod pid = some [])) ∧
    (∀ name, name ∈ ruleKeys a →
      ∃ pl : List Nat,
        (YaccGrammar.new kind a).rules_prods[
          nameIdx (nontermNames kind a) name]? = some pl ∧
        ∀ (q pid : Nat), pl[q]? = some pid →
          ∃ L : List GrmSymbol,
            (YaccGrammar.new kind a).prod pid = some L ∧
            (∀ (u t : Nat), L[u]? = some (GrmSymbol.Terminal t) →
              L[u + 1]? = some (GrmSymbol.Nonterminal
                (nameIdx (nontermNames kind a) (implicitNontermName a)))) ∧
            (∀ u : Nat, L[u + 1]? = some (GrmSymbol.Nonterminal
                (nameIdx (nontermNames kind a) (implicitNontermName a))) →
              ∃ t : Nat, L[u]? = some (GrmSymbol.Terminal t)) ∧
            L[0]? ≠ some (GrmSymbol.Nonterminal
              (nameIdx (nontermNames kind a) (implicitNontermName a)))) := by
  constructor
  · have hmem : implicitNontermName a ∈ nontermNames kind a :=
      mem_nontermNames.mpr (Or.inr (Or.inl ⟨himp, Or.inl rfl⟩))
    obtain ⟨hpl, hrp, hpj⟩ := new_tables_at_name kind a hv hmem
    rw [prodsForName_implicit_eq kind a himp] at hrp hpj
    have hflen : ((a.implicit_tokens.getD []).map
        (fun t => ([GrmSymbol.Terminal (nameIdx (termNames a) t)],
          (none : Option Precedence))) ++ [([], none)]).length =
        (a.implicit_tokens.getD []).length + 1 := by
      rw [List.length_append, List.length_map, List.length_singleton]
    rw [hflen] at hrp
    refine ⟨_, hrp, by rw [List.length_range'], ?_, ?_⟩
    · intro j t hj
      have hjlt : j < (a.implicit_tokens.getD []).length :=
        (List.getElem?_eq_some_iff.mp hj).fst
      refine ⟨sumLen ((prodLists kind a).take (nameIdx (nontermNames kind a)
        (implicitNontermName a))) + j, ?_, ?_⟩
      · rw [List.getElem?_range' _ _ (by omega), Nat.one_mul]
      · have hF : (((a.implicit_tokens.getD []).map
            (fun t => ([GrmSymbol.Terminal (nameIdx (termNames a) t)],
              (none : Option Precedence)))) ++ [([], none)])[j]? =
            some ([GrmSymbol.Terminal (nameIdx (termNames a) t)], none) := by
          rw [List.getElem?_append_left (by rw [List.length_map]; exact hjlt),
            List.getElem?_map, hj, Option.map_some']
        exact (hpj _ j hF).1
    · refine ⟨sumLen ((prodLists kind a).take (nameIdx (nontermNames kind a)
        (implicitNontermName a))) + (a.implicit_tokens.getD []).length, ?_, ?_⟩
      · rw [List.getElem?_range' _ _ (by omega), Nat.one_mul]
      · have hF : (((a.implicit_tokens.getD []).map
            (fun t => ([GrmSymbol.Terminal (nameIdx (termNames a) t)],
              (none : Option Precedence)))) ++
            [([], none)])[(a.implicit_tokens.getD []).length]? =
            some ([], none) := by
          rw [List.getElem?_append_right (by rw [List.length_map]),
            List.length_map, Nat.sub_self]
          rfl
        exact (hpj _ _ hF).1
  · intro name hk
    obtain ⟨r, hr, pl, hpl, hlen, hblock⟩ := user_rule_block kind a hv hk
    refine ⟨pl, hpl, ?_⟩
    intro q pid hq
    have hqlt : q < r.productions.length := by
      rw [← hlen]
      exact (List.getElem?_eq_some_iff.mp hq).fst
    have hp : r.productions[q]? = some r.productions[q] :=
      List.getElem?_eq_getElem hqlt
    obtain ⟨pid', hpid', hprod, _⟩ := hblock q _ hp
    rw [hq] at hpid'
    have hpide : pid = pid' := by
      exact (Option.some.injEq _ _).mp hpid'
    subst hpide
    rw [if_pos himp] at hprod
    refine ⟨_, hprod, ?_⟩
    have hsy : ∀ sy ∈ (r.productions[q]).symbols,
        ast.Symbol.refOk a sy = true := by
      obtain ⟨_, _, _, hrules, _⟩ := validate_parts hv
      exact ((hrules (name, r) (lookup_eq_some_mem hr)).2 _
        (List.getElem_mem hqlt)).1
    have hinj := lowerSyms_implicitInjected kind a hv himp hsy
    obtain ⟨h1, h2, h3⟩ := implicitInjected_positions hinj
    exact ⟨h1, h2, h3⟩

/-- Witness for C3 on the implicit-token grammar of the source's tests. -/
theorem C3_implicit_token_injection_witness :
    (∃ pl : List Nat,
      (YaccGrammar.new YaccKind.Eco implicitAST).rules_prods[
        nameIdx (nontermNames YaccKind.Eco implicitAST)
          (implicitNontermName implicitAST)]? = some pl ∧
      pl.length = (implicitAST.implicit_tokens.getD []).length + 1 ∧
      (∀ (j : Nat) (t : String),
        (implicitAST.implicit_tokens.getD [])[j]? = some t →
        ∃ pid : Nat, pl[j]? = some pid ∧
          (YaccGrammar.new YaccKind.Eco implicitAST).prod pid =
            some [GrmSymbol.Terminal (nameIdx (termNames implicitAST) t)]) ∧
      (∃ pid : Nat,
        pl[(implicitAST.implicit_tokens.getD []).length]? = some pid ∧
        (YaccGrammar.new YaccKind.Eco implicitAST).prod pid = some [])) ∧
    (∀ name, name ∈ ruleKeys implicitAST →
      ∃ pl : List Nat,
        (YaccGrammar.new YaccKind.Eco implicitAST).rules_prods[
          nameIdx (nontermNames YaccKind.Eco implicitAST) name]? = some pl ∧
        ∀ (q pid : Nat), pl[q]? = some pid →
          ∃ L : List GrmSymbol,
            (YaccGrammar.new YaccKind.Eco implicitAST).prod pid = some L ∧
            (∀ (u t : Nat), L[u]? = some (GrmSymbol.Terminal t) →
              L[u + 1]? = some (GrmSymbol.Nonterminal
                (nameIdx (nontermNames YaccKind.Eco implicitAST)
                  (implicitNontermName implicitAST)))) ∧
            (∀ u : Nat, L[u + 1]? = some (GrmSymbol.Nonterminal
                (nameIdx (nontermNames YaccKind.Eco implicitAST)
                  (implicitNontermName implicitAST))) →
              ∃ t : Nat, L[u]? = some (GrmSymbol.Terminal t)) ∧
            L[0]? ≠ some (GrmSymbol.Nonterminal
              (nameIdx (nontermNames YaccKind.Eco implicitAST)
                (implicitNontermName implicitAST)))) :=
  C3_implicit_token_injection YaccKind.Eco implicitAST (by decide) (by decide)

/-! ### The sort comparator is a total preorder, antisymmetric up to
case-folding -/

theorem lexLe_total (a : List Char) : ∀ b, lexLe a b = true ∨ lexLe b a = true := by
  induction a with
  | nil => intro b; exact Or.inl rfl
  | cons x xs ih =>
    intro b
    cases b with
    | nil => exact Or.inr rfl
    | cons y ys =>
      by_cases hxy : x = y
      · subst hxy
        rcases ih ys with h | h
        · left; simpa [lexLe] using h
        · right; simpa [lexLe] using h
      · rcases lt_or_gt_of_ne hxy with h | h
        · left; simp [lexLe, hxy, h]
        · right; simp [lexLe, Ne.symm hxy, h]

theorem lexLe_trans : ∀ (a b c : List Char), lexLe a b = true →
    lexLe b c = true → lexLe a c = true := by
  intro a
  induction a with
  | nil => intro b c _ _; rfl
  | cons x xs ih =>
    intro b c h1 h2
    cases b with
    | nil => simp [lexLe] at h1
    | cons y ys =>
      cases c with
      | nil => simp [lexLe] at h2
      | cons z zs =>
        by_cases hxy : x = y
        · subst hxy
          simp only [lexLe, if_pos rfl] at h1
          by_cases hxz : x = z
          · subst hxz
            simp only [lexLe, if_pos rfl] at h2 ⊢
            exact ih ys zs h1 h2
          · simp [lexLe, hxz] at h2 ⊢
            exact h2
        · by_cases hyz : y = z
          · subst hyz
            simp [lexLe, hxy] at h1 ⊢
            exact h1
          · simp only [lexLe, if_neg hxy, decide_eq_true_eq] at h1
            simp only [lexLe, if_neg hyz, decide_eq_true_eq] at h2
            have hxz : x < z := lt_trans h1 h2
            simp [lexLe, ne_of_lt hxz, hxz]

theorem lexLe_antisymm : ∀ (a b : List Char), lexLe a b = true →
    lexLe b a = true → a = b := by
  intro a
  induction a with
  | nil =>
    intro b h1 h2
    cases b with
    | nil => rfl
    | cons y ys => simp [lexLe] at h2
  | cons x xs ih =>
    intro b h1 h2
    cases b with
    | nil => simp [lexLe] at h1
    | cons y ys =>
      by_cases hxy : x = y
      · subst hxy
        simp only [lexLe, if_pos rfl] at h1 h2
        rw [ih ys h1 h2]
      · simp only [lexLe, if_neg hxy, decide_eq_true_eq] at h1
        simp only [lexLe, if_neg (Ne.symm hxy), decide_eq_true_eq] at h2
        exact absurd h2 (asymm h1)

theorem strCmpLe_total (a b : String) :
    strCmpLe a b = true ∨ strCmpLe b a = true :=
  lexLe_total _ _

theorem strCmpLe_trans {a b c : String} (h1 : strCmpLe a b = true)
    (h2 : strCmpLe b c = true) : strCmpLe a c = true :=
  lexLe_trans _ _ _ h1 h2

theorem strCmpLe_antisymm_lower {a b : String} (h1 : strCmpLe a b = true)
    (h2 : strCmpLe b a = true) : lowerStr a = lowerStr b :=
  String.ext (lexLe_antisymm _ _ h1 h2)

/-! ### Order-independence ingredients -/

theorem freshNameGo_congr (m : String) {t1 t2 : List String}
    (hperm : t1.Perm t2) :
    ∀ fuel cand, freshNameGo m t1 fuel cand = freshNameGo m t2 fuel cand := by
  intro fuel
  induction fuel with
  | zero => intro cand; rfl
  | succ fuel ih =>
    intro cand
    by_cases hmem : cand ∈ t1
    · show (if cand ∈ t1 then freshNameGo m t1 fuel (cand ++ m) else cand) = _
      rw [if_pos hmem]
      have hmem2 : cand ∈ t2 := hperm.mem_iff.mp hmem
      show _ = (if cand ∈ t2 then freshNameGo m t2 fuel (cand ++ m) else cand)
      rw [if_pos hmem2]
      exact ih (cand ++ m)
    · show (if cand ∈ t1 then freshNameGo m t1 fuel (cand ++ m) else cand) = _
      rw [if_neg hmem]
      have hmem2 : cand ∉ t2 := fun h => hmem (hperm.mem_iff.mpr h)
      show _ = (if cand ∈ t2 then freshNameGo m t2 fuel (cand ++ m) else cand)
      rw [if_neg hmem2]

theorem freshName_congr (m : String) {t1 t2 : List String}
    (hperm : t1.Perm t2) : freshName m t1 = freshName m t2 := by
  rw [freshName, freshName, hperm.length_eq, freshNameGo_congr m hperm]

theorem lookup_perm_of_nodupKeys {β : Type} {l1 l2 : List (String × β)}
    (hperm : l1.Perm l2) (hnd : (l1.map Prod.fst).Nodup) (k : String) :
    List.lookup k l1 = List.lookup k l2 := by
  induction hperm with
  | nil => rfl
  | cons x h ih =>
    rw [List.lookup_cons, List.lookup_cons]
    cases hk : k == x.1 with
    | true => rfl
    | false =>
      simp only []
      exact ih (by simpa using (List.nodup_cons.mp (by simpa using hnd)).2)
  | swap x y l =>
    rw [List.lookup_cons, List.lookup_cons, List.lookup_cons, List.lookup_cons]
    have hnd' : (y.1 :: x.1 :: l.map Prod.fst).Nodup := by simpa using hnd
    have hxy : y.1 ≠ x.1 := by
      intro he
      exact (List.nodup_cons.mp hnd').1 (by rw [he]; exact List.mem_cons_self _ _)
    cases hky : k == y.1 with
    | true =>
      have hk : k = y.1 := by simpa using hky
      have hkx : (k == x.1) = false := by
        simp only [beq_eq_false_iff_ne, ne_eq]
        rw [hk]
        exact hxy
      rw [hkx]
    | false =>
      cases hkx : k == x.1 with
      | true => simp
      | false => simp
  | trans h1 h2 ih1 ih2 =>
    have hnd2 : _ := ((h1.map Prod.fst).nodup_iff).mp hnd
    rw [ih1 hnd, ih2 hnd2]

theorem sorted_perm_eq_of_antisymm :
    ∀ {l1 l2 : List String}, l1.Perm l2 →
      List.Sorted strCmpLeP l1 → List.Sorted strCmpLeP l2 →
      (∀ x ∈ l1, ∀ y ∈ l1, strCmpLeP x y → strCmpLeP y x → x = y) →
      l1 = l2 := by
  intro l1
  induction l1 with
  | nil =>
    intro l2 hperm _ _ _
    exact (hperm.symm.eq_nil).symm
  | cons x xs ih =>
    intro l2 hperm hs1 hs2 hanti
    cases l2 with
    | nil => exact absurd hperm.eq_nil (by simp)
    | cons y ys =>
      have hxy : x = y := by
        by_cases hx : x = y
        · exact hx
        · have hxmem : x ∈ y :: ys := hperm.mem_iff.mp (List.mem_cons_self _ _)
          have hymem : y ∈ x :: xs := hperm.mem_iff.mpr (List.mem_cons_self _ _)
          have hxys : x ∈ ys := by
            rcases List.mem_cons.mp hxmem with h | h
            · exact absurd h hx
            · exact h
          have hyxs : y ∈ xs := by
            rcases List.mem_cons.mp hymem with h | h
            · exact absurd h.symm hx
            · exact h
          have h1 : strCmpLeP x y :=
            ((List.sorted_cons.mp hs1).1) y hyxs
          have h2 : strCmpLeP y x :=
            ((List.sorted_cons.mp hs2).1) x hxys
          exact hanti x (List.mem_cons_self _ _) y
            (List.mem_cons_of_mem x hyxs) h1 h2
      subst hxy
      have htail : xs.Perm ys := hperm.cons_inv
      have := ih htail (List.sorted_cons.mp hs1).2 (List.sorted_cons.mp hs2).2
        (fun u hu v hv => hanti u (List.mem_cons_of_mem x hu) v
          (List.mem_cons_of_mem x hv))
      rw [this]

/-- C7 as frozen is false, on both iteration orders it quantifies over:
two validated ASTs recording the same grammar content but differing in
the iteration order of the implicit-token set construct unequal grammars
(the implicit nonterminal's productions are emitted in set-iteration
order), and two recording the same content but differing in the
iteration order of the rules map construct unequal nonterminal name
tables when two rule names (`"A"`/`"a"`, plain ASCII) are equal after
case-folding — the stable sort keeps such ties in map order. -/
theorem C7_counterexample_iteration_orders :
    (cexAst1.validate = true ∧ cexAst2.validate = true ∧
     cexAst1.SameContent cexAst2 ∧
     YaccGrammar.new YaccKind.Eco cexAst1 ≠
       YaccGrammar.new YaccKind.Eco cexAst2) ∧
    (tieAst1.validate = true ∧ tieAst2.validate = true ∧
     tieAst1.SameContent tieAst2 ∧
     (YaccGrammar.new YaccKind.Original tieAst1).nonterminal_names ≠
       (YaccGrammar.new YaccKind.Original tieAst2).nonterminal_names) := by
  constructor
  · refine ⟨by decide, by decide, ⟨List.Perm.refl _, rfl, rfl, rfl, ?_⟩,
      by decide⟩
    show (["a", "b"] : List String).Perm ["b", "a"]
    exact List.Perm.swap "b" "a" []
  · exact ⟨by decide, by decide,
      ⟨List.Perm.swap _ _ [], rfl, rfl, rfl, trivial⟩, by decide⟩

/-- C7 amended: construction is deterministic in the recorded orders; the
index assignment of every nonterminal and terminal name is independent of
the rules-map iteration order for ASCII names — the domain on which the
embedded case-folding coincides exactly with the source's Unicode
`to_lowercase` — with no two of them equal after case-folding (the stable
sort keeps such ties in map order: counterexample, second part), and the
whole grammar (all production tables included) is independent of it as
well once the implicit-token set's iteration order agrees; the
implicit-token order itself the production tables do follow
(counterexample, first part). -/
theorem C7_deterministic_construction (kind : YaccKind)
    (a1 a2 : ast.GrammarAST) (hv1 : a1.validate = true)
    (hv2 : a2.validate = true) (hr : a1.rules.Perm a2.rules)
    (ht : a1.tokens = a2.tokens) (hp : a1.precs = a2.precs)
    (hs : a1.start = a2.start)
    (hio : a1.implicit_tokens.isSome = a2.implicit_tokens.isSome)
    (hascii : ∀ x ∈ preSortNames kind a1, ∀ c ∈ x.data, c.toNat < 128)
    (hlc : ∀ x ∈ preSortNames kind a1, ∀ y ∈ preSortNames kind a1,
      lowerStr x = lowerStr y → x = y) :
    ((YaccGrammar.new kind a1).nonterminal_names =
      (YaccGrammar.new kind a2).nonterminal_names ∧
     (YaccGrammar.new kind a1).terminal_names =
      (YaccGrammar.new kind a2).terminal_names ∧
     (YaccGrammar.new kind a1).terminal_precs =
      (YaccGrammar.new kind a2).terminal_precs ∧
     (YaccGrammar.new kind a1).end_term =
      (YaccGrammar.new kind a2).end_term) ∧
    (a1.implicit_tokens = a2.implicit_tokens →
      YaccGrammar.new kind a1 = YaccGrammar.new kind a2) := by
  have hkeys : (ruleKeys a1).Perm (ruleKeys a2) := hr.map Prod.fst
  have hstart : startNontermName a1 = startNontermName a2 :=
    freshName_congr _ hkeys
  have himpn : implicitNontermName a1 = implicitNontermName a2 :=
    freshName_congr _ hkeys
  have himps : implicitStartNontermName a1 = implicitStartNontermName a2 :=
    freshName_congr _ hkeys
  have hend : endTermName a1 = endTermName a2 := by
    rw [endTermName, endTermName, ht]
  have hhi : hasImplicit kind a1 = hasImplicit kind a2 := by
    rw [hasImplicit, hasImplicit, hio]
  have hpre : (preSortNames kind a1).Perm (preSortNames kind a2) := by
    rw [preSortNames, preSortNames, hstart, himpn, himps, hhi]
    exact List.Perm.append_left _ hkeys
  haveI instTot : IsTotal String strCmpLeP := ⟨fun a b => strCmpLe_total a b⟩
  haveI instTrans : IsTrans String strCmpLeP :=
    ⟨fun a b c h1 h2 => strCmpLe_trans h1 h2⟩
  have hnames : nontermNames kind a1 = nontermNames kind a2 := by
    apply sorted_perm_eq_of_antisymm
    · exact ((List.perm_insertionSort _ _).trans hpre).trans
        (List.perm_insertionSort _ _).symm
    · exact List.sorted_insertionSort _ _
    · exact List.sorted_insertionSort _ _
    · intro x hx y hy h1 h2
      have hx' : x ∈ preSortNames kind a1 :=
        (List.perm_insertionSort _ _).mem_iff.mp hx
      have hy' : y ∈ preSortNames kind a1 :=
        (List.perm_insertionSort _ _).mem_iff.mp hy
      exact hlc x hx' y hy' (strCmpLe_antisymm_lower h1 h2)
  have htn : termNames a1 = termNames a2 := by
    rw [termNames, termNames, hend, ht]
  have htp : termPrecs a1 = termPrecs a2 := by
    rw [termPrecs, termPrecs, ht, hp]
  refine ⟨⟨hnames, htn, htp, ?_⟩, ?_⟩
  · show nameIdx (termNames a1) (endTermName a1) =
      nameIdx (termNames a2) (endTermName a2)
    rw [htn, hend]
  · intro hi
    have hlook : ∀ n, List.lookup n a1.rules = List.lookup n a2.rules :=
      fun n => lookup_perm_of_nodupKeys hr ((validate_parts hv1).2.1) n
    have hpfn : prodsForName kind a1 = prodsForName kind a2 := by
      funext name
      rw [prodsForName, prodsForName, hstart, himpn, himps, hhi, hnames, hs,
        hi, htn, hlook name, hp]
    have hplists : prodLists kind a1 = prodLists kind a2 := by
      rw [prodLists, prodLists, hnames, hpfn]
    rw [YaccGrammar.new, YaccGrammar.new, hnames, htn, htp, hend, hstart,
      himpn, hhi, hplists]

/-- Witness for the amended C7: the two-rule grammar with its rules map
iterated in either order constructs identical name tables and, the
implicit-token orders agreeing trivially, identical grammars. -/
theorem C7_deterministic_construction_witness :
    ((YaccGrammar.new YaccKind.Original ordAst1).nonterminal_names =
      (YaccGrammar.new YaccKind.Original ordAst2).nonterminal_names ∧
     (YaccGrammar.new YaccKind.Original ordAst1).terminal_names =
      (YaccGrammar.new YaccKind.Original ordAst2).terminal_names ∧
     (YaccGrammar.new YaccKind.Original ordAst1).terminal_precs =
      (YaccGrammar.new YaccKind.Original ordAst2).terminal_precs ∧
     (YaccGrammar.new YaccKind.Original ordAst1).end_term =
      (YaccGrammar.new YaccKind.Original ordAst2).end_term) ∧
    (ordAst1.implicit_tokens = ordAst2.implicit_tokens →
      YaccGrammar.new YaccKind.Original ordAst1 =
        YaccGrammar.new YaccKind.Original ordAst2) :=
  C7_deterministic_construction YaccKind.Original ordAst1 ordAst2 (by decide)
    (by decide) (List.Perm.swap _ _ []) rfl rfl rfl rfl (by decide)
    (by decide)
